import Mathlib

set_option maxRecDepth 8192

/-!
Shallow embedding of the deno-scanner repository (src/scanner.ts and the
helpers module) and verification of its specification claims.

The scanner consumes a character source through a chunked cursor and
classifies tokens by a character-driven state machine.  Here the cursor is
modelled by the list of characters still to be read: `peek` is the head of
that list and `next` consumes the head while updating line/column exactly as
`Scanner#next` does (including the unconditional column increment when the
source is exhausted).  The chunk-refill layer of `Scanner#peek`, which is
invisible at the character level, is modelled separately (`refill`,
`chunkBufLen`) for the buffering claim.
-/

/-- Token categories produced by the scanner (enum `Token` in src/scanner.ts). -/
inductive Token where
  | eof
  | token
  | whitespace
  | identifier
  | keyword
  | int
  | float
  | string
  | comment
deriving DecidableEq, Repr

deriving instance DecidableEq for Except

/-- Numeric value of each enum member in the source (`eof = -1`, then 0..7). -/
def tokenVal : Token → Int
  | .eof => -1
  | .token => 0
  | .whitespace => 1
  | .identifier => 2
  | .keyword => 3
  | .int => 4
  | .float => 5
  | .string => 6
  | .comment => 7

/-- Reverse enum lookup `Token[t]`, used by the helpers module for messages. -/
def tokenName : Token → String
  | .eof => "eof"
  | .token => "token"
  | .whitespace => "whitespace"
  | .identifier => "identifier"
  | .keyword => "keyword"
  | .int => "int"
  | .float => "float"
  | .string => "string"
  | .comment => "comment"

/-- Mask bit `scanWhitespace = 1 << -Token.whitespace = 2`. -/
def scanWhitespaceBit : Nat := 2
/-- Mask bit `scanIdents = 1 << -Token.identifier = 4`. -/
def scanIdentsBit : Nat := 4
/-- Mask bit `scanInts = 1 << -Token.int = 16`. -/
def scanIntsBit : Nat := 16
/-- Mask bit `scanFloats = 1 << -Token.float = 32`. -/
def scanFloatsBit : Nat := 32
/-- Mask bit `scanStrings = 1 << -Token.string = 64`. -/
def scanStringsBit : Nat := 64
/-- Mask bit `scanComments = 1 << -Token.comment = 128`. -/
def scanCommentsBit : Nat := 128

/-- The mode bitmask, decoded into one flag per maskable category.  Each field
records one test the source performs: `mode & scanWhitespace`,
`mode & scanIdents`, `mode & scanInts`, `mode & scanFloats`,
`mode & scanStrings`, `mode & scanComments`. -/
structure Mode where
  ws : Bool
  idents : Bool
  ints : Bool
  floats : Bool
  strs : Bool
  cmts : Bool
deriving DecidableEq, Repr

/-- Decode a numeric bitmask into its six category flags. -/
def Mode.ofBits (n : Nat) : Mode :=
  ⟨n &&& scanWhitespaceBit != 0, n &&& scanIdentsBit != 0, n &&& scanIntsBit != 0,
   n &&& scanFloatsBit != 0, n &&& scanStringsBit != 0, n &&& scanCommentsBit != 0⟩

/-- Default mode `defaultTokens = scanIdents | scanFloats | scanStrings`. -/
def defaultMode : Mode := Mode.ofBits (scanIdentsBit ||| scanFloatsBit ||| scanStringsBit)

/-- A mode with all six maskable categories enabled. -/
def allMode : Mode :=
  Mode.ofBits (scanWhitespaceBit ||| scanIdentsBit ||| scanIntsBit ||| scanFloatsBit |||
    scanStringsBit ||| scanCommentsBit)

/-- Double-quote character (string delimiter). -/
def dqc : Char := Char.ofNat 34
/-- Single-quote character (string delimiter). -/
def sqc : Char := Char.ofNat 39
/-- Backquote character (string delimiter). -/
def bqc : Char := Char.ofNat 96

/-- Boolean character order test. -/
def charLe (a b : Char) : Bool := decide (a ≤ b)

/-- Default `isWhitespace`: space, tab, newline or carriage return. -/
def isWhitespace (ch : Char) : Bool :=
  ch == ' ' || ch == '\t' || ch == '\n' || ch == '\r'

/-- Default `isIdent`: letters at any index; underscore and digits after index 0. -/
def isIdent (ch : Char) (i : Nat) : Bool :=
  (charLe 'A' ch && charLe ch 'Z') || (charLe 'a' ch && charLe ch 'z') ||
    (decide (0 < i) && (ch == '_' || (charLe '0' ch && charLe ch '9')))

/-- Default `isStringDelimiter`: double quote, single quote or backquote. -/
def isStringDelimiter (ch : Char) : Bool :=
  ch == dqc || ch == sqc || ch == bqc

/-- Default `isDecimal`: the digits 0-9. -/
def isDecimal (ch : Char) : Bool := charLe '0' ch && charLe ch '9'

/-- Default `isSign`: plus or minus. -/
def isSign (ch : Char) : Bool := ch == '+' || ch == '-'

/-- Default `isHex`: `0` at index 0, `x`/`X` at index 1, hex digits after. -/
def isHex (ch : Char) (i : Nat) : Bool :=
  if i = 0 then ch == '0'
  else if i = 1 then ch == 'x' || ch == 'X'
  else (charLe '0' ch && charLe ch '9') || (charLe 'A' ch && charLe ch 'F') ||
    (charLe 'a' ch && charLe ch 'f')

/-- Default `isOctal`: `0` at index 0, `o`/`O` at index 1, then `0`-`8`. -/
def isOctal (ch : Char) (i : Nat) : Bool :=
  if i = 0 then ch == '0'
  else if i = 1 then ch == 'o' || ch == 'O'
  else charLe '0' ch && charLe ch '8'

/-- Default `isBinary`: `0` at index 0, `b`/`B` at index 1, then `0` or `1`. -/
def isBinary (ch : Char) (i : Nat) : Bool :=
  if i = 0 then ch == '0'
  else if i = 1 then ch == 'b' || ch == 'B'
  else ch == '0' || ch == '1'

/-- Default `isENotation`: `E` or `e`. -/
def isENotationChar (ch : Char) : Bool := ch == 'E' || ch == 'e'

/-- Default `isComment`: `/` at indices 0 and 1, then anything but newline. -/
def isComment (ch : Char) (i : Nat) : Bool :=
  if i = 0 || i = 1 then ch == '/' else ch != '\n'

/-- Default `isBlockCommentOpen`: `/` at index 0, `*` at index 1. -/
def isBlockCommentOpen (ch : Char) (i : Nat) : Bool :=
  if i = 0 then ch == '/' else if i = 1 then ch == '*' else false

/-- Default `isBlockCommentClose`: `*` at index 0, `/` at index 1. -/
def isBlockCommentClose (ch : Char) (i : Nat) : Bool :=
  if i = 0 then ch == '*' else if i = 1 then ch == '/' else false

/-- Default `isKeyword`: `token === null`, always false for an actual string. -/
def isKeyword (_s : String) : Bool := false

/-- Line/column update of `Scanner#next` for one consumed character: a newline
increments the line and resets the column, anything else increments the column. -/
def advancePos (ch : Char) (l c : Nat) : Nat × Nat :=
  if ch = '\n' then (l + 1, 0) else (l, c + 1)

/-- `Scanner#next`: peek the head character and consume it; the column is
incremented even when the source is exhausted (the character is `null`). -/
def nextc (src : List Char) (l c : Nat) : Option Char × List Char × Nat × Nat :=
  match src with
  | [] => (none, [], l, c + 1)
  | ch :: rest =>
    let p := advancePos ch l c
    (some ch, rest, p.1, p.2)

/-- Whitespace extension loop of `scan()`: consume while `isWhitespace` holds. -/
def wsRun (src : List Char) (l c : Nat) (acc : List Char) : List Char × Nat × Nat × List Char :=
  match src with
  | [] => ([], l, c, acc)
  | ch :: rest =>
    if isWhitespace ch then
      let p := advancePos ch l c
      wsRun rest p.1 p.2 (acc ++ [ch])
    else (ch :: rest, l, c, acc)

/-- Identifier extension loop of `scan()`: consume while `isIdent ch i` holds,
with `i` counting the position inside the token. -/
def identRun (src : List Char) (l c : Nat) (acc : List Char) (i : Nat) :
    List Char × Nat × Nat × List Char :=
  match src with
  | [] => ([], l, c, acc)
  | ch :: rest =>
    if isIdent ch i then
      let p := advancePos ch l c
      identRun rest p.1 p.2 (acc ++ [ch]) (i + 1)
    else (ch :: rest, l, c, acc)

/-- String-literal loop of `scan()`: error on exhaustion or raw newline before
the closing delimiter; a backslash immediately followed by the delimiter
consumes both without closing; otherwise the delimiter closes the literal. -/
def stringRun (delim : Char) (src : List Char) (l c : Nat) (acc : List Char) :
    Except String (List Char × Nat × Nat × List Char) :=
  match src with
  | [] => .error "literal not terminated"
  | ch :: [] =>
    if ch = '\n' then .error "literal not terminated"
    else
      let p := advancePos ch l c
      let acc1 := acc ++ [ch]
      -- the peek after `ch` is null, so the escape lookahead cannot consume;
      -- when `ch` is not the delimiter the next iteration peeks null and throws
      if ch = delim then .ok ([], p.1, p.2, acc1)
      else .error "literal not terminated"
  | ch :: d :: rest2 =>
    if ch = '\n' then .error "literal not terminated"
    else
      let p := advancePos ch l c
      let acc1 := acc ++ [ch]
      if ch = '\\' then
        if d = delim then
          let p2 := advancePos d p.1 p.2
          if ch = delim then .ok (rest2, p2.1, p2.2, acc1 ++ [d])
          else stringRun delim rest2 p2.1 p2.2 (acc1 ++ [d])
        else if ch = delim then .ok (d :: rest2, p.1, p.2, acc1)
        else stringRun delim (d :: rest2) p.1 p.2 acc1
      else if ch = delim then .ok (d :: rest2, p.1, p.2, acc1)
      else stringRun delim (d :: rest2) p.1 p.2 acc1

/-- The numeric base the integer loop can lock in, in the order the source
checks them: hex, octal, binary, decimal. -/
inductive NumBase where
  | hex
  | octal
  | binary
  | decimal
deriving DecidableEq, Repr

/-- The predicate consulted once a base is locked in. -/
def baseCheck : NumBase → Char → Nat → Bool
  | .hex, ch, i => isHex ch i
  | .octal, ch, i => isOctal ch i
  | .binary, ch, i => isBinary ch i
  | .decimal, ch, _ => isDecimal ch

/-- Integer-part loop of the numeric sub-machine.  `f` is the
`mode & scanFloats` test: a dot switches to float mode (and is consumed) only
when floats are enabled.  The first matching base predicate (checked in the
order hex, octal, binary, decimal) is locked in; the loop stops when no base
is locked or the locked base rejects the character.  Returns the remaining
source, position, accumulated text and the float flag. -/
def intRun (f : Bool) (src : List Char) (l c : Nat) (acc : List Char) (i : Nat)
    (chk : Option NumBase) : List Char × Nat × Nat × List Char × Bool :=
  match src with
  | [] => ([], l, c, acc, false)
  | ch :: rest =>
    if ch = '.' && f then
      let p := advancePos ch l c
      (rest, p.1, p.2, acc ++ [ch], true)
    else
      let chk2 := match chk with
        | some b => some b
        | none =>
          if isHex ch i then some NumBase.hex
          else if isOctal ch i then some NumBase.octal
          else if isBinary ch i then some NumBase.binary
          else if isDecimal ch then some NumBase.decimal
          else none
      match chk2 with
      | none => (ch :: rest, l, c, acc, false)
      | some b =>
        if baseCheck b ch i then
          let p := advancePos ch l c
          intRun f rest p.1 p.2 (acc ++ [ch]) (i + 1) (some b)
        else (ch :: rest, l, c, acc, false)

/-- Decimal digit run: used for the fractional part and for the e-notation
exponent digits (both loops in the source consume while `isDecimal` holds). -/
def fracRun (src : List Char) (l c : Nat) (acc : List Char) :
    List Char × Nat × Nat × List Char :=
  match src with
  | [] => ([], l, c, acc)
  | ch :: rest =>
    if isDecimal ch then
      let p := advancePos ch l c
      fracRun rest p.1 p.2 (acc ++ [ch])
    else (ch :: rest, l, c, acc)

/-- E-notation step of the numeric sub-machine: if the next character is an
e-notation marker and floats are enabled, consume it, consume an optional
sign, then a decimal exponent run, forcing the literal to float. -/
def eRun (f : Bool) (src : List Char) (l c : Nat) (acc : List Char) (isF : Bool) :
    List Char × Nat × Nat × List Char × Bool :=
  match src with
  | [] => ([], l, c, acc, isF)
  | ch :: rest =>
    if isENotationChar ch && f then
      let p := advancePos ch l c
      let acc1 := acc ++ [ch]
      match rest with
      | q :: rest2 =>
        if isSign q then
          let p2 := advancePos q p.1 p.2
          let r := fracRun rest2 p2.1 p2.2 (acc1 ++ [q])
          (r.1, r.2.1, r.2.2.1, r.2.2.2, true)
        else
          let r := fracRun (q :: rest2) p.1 p.2 acc1
          (r.1, r.2.1, r.2.2.1, r.2.2.2, true)
      | [] => ([], p.1, p.2, acc1, true)
    else (ch :: rest, l, c, acc, isF)

/-- Line-comment loop of `scan()`: consume while `isComment ch i` holds
(`/` at index 1, then anything except a newline). -/
def lineRun (src : List Char) (l c : Nat) (acc : List Char) (i : Nat) :
    List Char × Nat × Nat × List Char :=
  match src with
  | [] => ([], l, c, acc)
  | ch :: rest =>
    if isComment ch i then
      let p := advancePos ch l c
      lineRun rest p.1 p.2 (acc ++ [ch]) (i + 1)
    else (ch :: rest, l, c, acc)

/-- Block-comment loop of `scan()`: consume characters, erroring if the source
is exhausted before `isBlockCommentClose` matches at two consecutive
positions; the closing pair is consumed.  An empty source at loop entry is the
iteration whose `next()` returns `null` and throws. -/
def blockRun (src : List Char) (l c : Nat) (acc : List Char) :
    Except String (List Char × Nat × Nat × List Char) :=
  match src with
  | [] => .error "comment not terminated"
  | _ch :: [] =>
    -- the peek after the consumed character is null, so the close pair cannot
    -- match and the next iteration's `next()` returns null and throws
    .error "comment not terminated"
  | ch :: q :: rest2 =>
    let p := advancePos ch l c
    let acc1 := acc ++ [ch]
    if isBlockCommentClose ch 0 && isBlockCommentClose q 1 then
      let p2 := advancePos q p.1 p.2
      .ok (rest2, p2.1, p2.2, acc1 ++ [q])
    else blockRun (q :: rest2) p.1 p.2 acc1

/-- A lone sign: `contents.length === 1 && isSign(contents)`. -/
def isLoneSign : List Char → Bool
  | [c] => isSign c
  | _ => false

/-- The result of one classification pass of `scan()` (one dispatch, before
the category-mask skip decision): token tag, remaining source, end position,
token text, and start position. -/
structure ScanRes where
  tok : Token
  src : List Char
  line : Nat
  col : Nat
  contents : List Char
  startLine : Nat
  startCol : Nat
deriving DecidableEq, Repr

/-- The numeric sub-machine, entered after the first character `ch` of the
literal was consumed and the ints/floats gate passed.  `f` is the
`mode & scanFloats` test.  Runs the integer part (skipped when the literal
begins with a dot), then the fractional part when in float mode, then the
e-notation step, and classifies: a lone sign degrades to the generic token,
otherwise float or int by the float flag. -/
def numScan (f : Bool) (ch : Char) (src1 : List Char) (l1 c1 : Nat) : ScanRes :=
  match (if ch = '.' then (src1, l1, c1, [ch], true) else intRun f src1 l1 c1 [ch] 1 none) with
  | (srcA, lA, cA, accA, isF1) =>
    match (if isF1 then fracRun srcA lA cA accA else (srcA, lA, cA, accA)) with
    | (srcB, lB, cB, accB) =>
      match eRun f srcB lB cB accB isF1 with
      | (srcC, lC, cC, accC, isF2) =>
        ⟨if isLoneSign accC then Token.token else if isF2 then Token.float else Token.int,
         srcC, lC, cC, accC, l1, c1⟩

/-- The comment branch of `scan()`: the block flag holds when the first
character and the peeked character satisfy `isBlockCommentOpen` at indices 0
and 1; a block comment runs `blockRun`, anything else the line-comment loop. -/
def cmtScan (ch : Char) (pk : Option Char) (src1 : List Char) (l1 c1 : Nat) :
    Except String ScanRes :=
  if (match pk with
      | some p => isBlockCommentOpen ch 0 && isBlockCommentOpen p 1
      | none => false) then
    match blockRun src1 l1 c1 [ch] with
    | .error e => .error e
    | .ok (s2, l2, c2, acc) => .ok ⟨.comment, s2, l2, c2, acc, l1, c1⟩
  else
    match lineRun src1 l1 c1 [ch] 1 with
    | (s2, l2, c2, acc) => .ok ⟨.comment, s2, l2, c2, acc, l1, c1⟩

/-- Head-of-source decimal test used by the numeric dispatch (`peek` is the
one-character lookahead captured at scan entry). -/
def decimalHead : Option Char → Bool
  | some p => isDecimal p
  | none => false

/-- One classification pass of `scan()` (src/scanner.ts lines 293-430):
consume one character and dispatch on it in the source's priority order
(whitespace, identifier, string, number, comment, fallback token), running the
corresponding extension loop.  `g` is the `mode & (scanInts | scanFloats)`
gate and `f` the `mode & scanFloats` test — the only two mode tests inside the
classification itself.  The returned flag is true for the numeric-gate skip
(`return this.scan()` before any contents are accumulated), which consumes
exactly the one dispatched character.  On end of input the column increment of
`next()` is rolled back and the eof token carries empty contents. -/
def scanCore (g f : Bool) (src0 : List Char) (l0 c0 : Nat) :
    Except String (ScanRes × Bool) :=
  match nextc src0 l0 c0 with
  | (none, src1, l1, c1) => .ok (⟨.eof, src1, l1, c1 - 1, [], l1, c1 - 1⟩, false)
  | (some ch, src1, l1, c1) =>
    if isWhitespace ch then
      match wsRun src1 l1 c1 [ch] with
      | (s2, l2, c2, acc) => .ok (⟨.whitespace, s2, l2, c2, acc, l1, c1⟩, false)
    else if isIdent ch 0 then
      match identRun src1 l1 c1 [ch] 1 with
      | (s2, l2, c2, acc) =>
        .ok (⟨if isKeyword (String.mk acc) then .keyword else .identifier,
              s2, l2, c2, acc, l1, c1⟩, false)
    else if isStringDelimiter ch then
      match stringRun ch src1 l1 c1 [ch] with
      | .error e => .error e
      | .ok (s2, l2, c2, acc) => .ok (⟨.string, s2, l2, c2, acc, l1, c1⟩, false)
    else if isDecimal ch || isSign ch || (ch == '.' && decimalHead src1.head?) then
      if !g then .ok (⟨.int, src1, l1, c1, [], l1, c1⟩, true)
      else .ok (numScan f ch src1 l1 c1, false)
    else if isComment ch 0 || isBlockCommentOpen ch 0 then
      match cmtScan ch src1.head? src1 l1 c1 with
      | .error e => .error e
      | .ok r => .ok (r, false)
    else .ok (⟨.token, src1, l1, c1, [ch], l1, c1⟩, false)

/-- Category-mask test performed at each branch's return in `scan()`:
`mode & scanWhitespace` for whitespace, `mode & scanIdents` for identifiers
and keywords, `mode & scanStrings` for strings, `mode & scanComments` for
comments; eof, the generic token and int/float (whose branch has no mask test
at its return) are always emitted. -/
def catEnabled (m : Mode) : Token → Bool
  | .whitespace => m.ws
  | .identifier => m.idents
  | .keyword => m.idents
  | .string => m.strs
  | .comment => m.cmts
  | _ => true

/-- Fuel-exhaustion marker of the embedding; never produced when the fuel
exceeds the length of the remaining source. -/
def fuelMsg : String := "scanner fuel exhausted"

/-- `scan()` with explicit fuel bounding the skip recursion: one
classification pass, then either emit the token or, when its category is
disabled in the mask (or the numeric gate skipped), scan again — the skip
recursion of the source. -/
def scanF (m : Mode) : Nat → List Char → Nat → Nat → Except String ScanRes
  | 0, _, _, _ => .error fuelMsg
  | n + 1, src, l, c =>
    match scanCore (m.ints || m.floats) m.floats src l c with
    | .error e => .error e
    | .ok (r, gs) =>
      if gs then scanF m n r.src r.line r.col
      else if catEnabled m r.tok then .ok r
      else scanF m n r.src r.line r.col

/-- `scan()` on the character cursor: the skip recursion consumes at least one
character per step, so a fuel of one more than the remaining source length
always suffices. -/
def scanT (m : Mode) (src : List Char) (l c : Nat) : Except String ScanRes :=
  scanF m (src.length + 1) src l c

/-- The mutable scanner state visible to callers: remaining source, live
line/column (the `endPos` getter), `contents`, `currentToken` and `startPos`. -/
structure ScanState where
  src : List Char
  line : Nat
  column : Nat
  contents : List Char
  currentToken : Option Token
  startLine : Nat
  startCol : Nat
deriving DecidableEq, Repr

/-- A freshly constructed scanner: line 1, column 0, empty contents, no
current token, `startPos = [0, 0]`. -/
def initState (src : List Char) : ScanState :=
  ⟨src, 1, 0, [], none, 0, 0⟩

/-- `scan()` on the scanner state: runs the classification and writes the
emitted token's data back into the public fields (`contents`, `currentToken`,
`startPos`, and the cursor position behind `endPos`). -/
def scan (m : Mode) (s : ScanState) : Except String (Token × ScanState) :=
  match scanT m s.src s.line s.column with
  | .error e => .error e
  | .ok r => .ok (r.tok, ⟨r.src, r.line, r.col, r.contents, some r.tok, r.startLine, r.startCol⟩)

/-- Repeated `scan()` calls collected into a token stream, ending with the
eof record; fuel bounds the number of emitted tokens. -/
def tokensF (m : Mode) : Nat → List Char → Nat → Nat → Except String (List ScanRes)
  | 0, _, _, _ => .error fuelMsg
  | n + 1, src, l, c =>
    match scanT m src l c with
    | .error e => .error e
    | .ok r =>
      if r.tok = Token.eof then .ok [r]
      else
        match tokensF m n r.src r.line r.col with
        | .error e => .error e
        | .ok rest => .ok (r :: rest)

/-- The token stream from an arbitrary cursor position: every emitted non-eof
token consumes at least one character, so a fuel of one more than the source
length always suffices. -/
def tokensT (m : Mode) (src : List Char) (l c : Nat) : Except String (List ScanRes) :=
  tokensF m (src.length + 1) src l c

/-- The full token stream of a source scanned from a fresh scanner (line 1,
column 0). -/
def tokens (m : Mode) (src : List Char) : Except String (List ScanRes) :=
  tokensT m src 1 0

/-- State of a scanner after its cursor is exhausted and eof was returned:
empty source, position unchanged, empty contents, `startPos` equal to the
position, current token eof. -/
def exhaustState (s : ScanState) : ScanState :=
  ⟨[], s.line, s.column, [], some .eof, s.line, s.column⟩

/-- The four categories whose branch performs a mask test at its return;
toggling one of these is the filtering claim's scope. -/
inductive MCat where
  | ws
  | idents
  | strs
  | cmts
deriving DecidableEq, Repr

/-- Set one maskable category flag. -/
def MCat.set : MCat → Bool → Mode → Mode
  | .ws, b, m => { m with ws := b }
  | .idents, b, m => { m with idents := b }
  | .strs, b, m => { m with strs := b }
  | .cmts, b, m => { m with cmts := b }

/-- The token categories a mask category covers (identifiers cover keywords). -/
def MCat.has : MCat → Token → Bool
  | .ws, .whitespace => true
  | .idents, .identifier => true
  | .idents, .keyword => true
  | .strs, .string => true
  | .cmts, .comment => true
  | _, _ => false

/-- Lexicographic order on (line, column) positions. -/
def posLe (p q : Nat × Nat) : Prop := p.1 < q.1 ∨ (p.1 = q.1 ∧ p.2 ≤ q.2)

/-! ### The chunked-input layer (constructor options and refill policy) -/

/-- The fixed module constant `MIN_READ = 2`: the refill loop's threshold. -/
def MIN_READ : Nat := 2

/-- The construction options relevant to buffering: the byte length of a
caller-supplied chunk buffer, and the `minRead` option. -/
structure InitOpts where
  chunkBufferSize : Option Nat
  minRead : Option Nat
deriving DecidableEq, Repr

/-- Byte length of the chunk buffer handed to every read:
`init.chunkBuffer || new Uint8Array(init.minRead || 512)` — the supplied
buffer's length when given, otherwise the `minRead` option (JS-falsy 0 falls
back) or 512. -/
def chunkBufLen (init : InitOpts) : Nat :=
  match init.chunkBufferSize with
  | some n => n
  | none =>
    match init.minRead with
    | some n => if n = 0 then 512 else n
    | none => 512

/-- The refill loop of `Scanner#peek`: while the working buffer holds fewer
than `MIN_READ` characters, pull the next chunk (truncated to the chunk
buffer's length; an empty read signals exhaustion and stops the loop) and
append it.  The incremental source is the list of chunk payloads successive
reads would deliver. -/
def refill (len : Nat) (chunks : List (List Char)) (buffer : List Char) :
    List (List Char) × List Char :=
  if buffer.length < MIN_READ then
    match chunks with
    | [] => ([], buffer)
    | c :: rest =>
      let got := c.take len
      if got.length = 0 then (rest, buffer)
      else refill len rest (buffer ++ got)
  else (chunks, buffer)

/-! ### The error-reporting helpers (helpers module) -/

/-- `TokenError`'s message construction: `unexpected <category>`, the
parenthesised contents when `scanner.contents` is truthy (non-empty), the
`longPosition` rendering of `startPos`, and — when the expected token is
truthy, which the generic token's enum value 0 is not — the expected suffix
with its optional contents. -/
def tokenErrorMessage (contents : String) (startL startC : Nat) (actual : Token)
    (expected : Option Token) (expContents : Option String) : String :=
  let msg := "unexpected " ++ tokenName actual
  let cts := if contents = "" then "" else " (" ++ contents ++ ")"
  let expStr :=
    match expected with
    | some t =>
      if tokenVal t = 0 then ""
      else "; expected " ++ tokenName t ++
        (match expContents with | some s => " " ++ s | none => "")
    | none => ""
  msg ++ cts ++ " on line " ++ toString startL ++ ", column " ++ toString startC ++ expStr

/-- `nextTokenIs`: one `scan()` call; succeed with the observed contents when
the token matches and (if expected contents were supplied) the contents match,
otherwise raise the `TokenError` message; a scanning error propagates. -/
def nextTokenIs (m : Mode) (s : ScanState) (expected : Token)
    (expContents : Option String) : Except String String :=
  match scan m s with
  | .error e => .error e
  | .ok (t, s2) =>
    if !(t == expected) ||
        !(!expContents.isSome || (expContents == some (String.mk s2.contents))) then
      .error (tokenErrorMessage (String.mk s2.contents) s2.startLine s2.startCol t
        (some expected) expContents)
    else .ok (String.mk s2.contents)

/-! ### Definitions following the specification's words, for comparison -/

/-- Unterminated string literal, following the specification's words: the
content after the opening delimiter reaches a raw newline or source
exhaustion before the closing delimiter, where a backslash immediately
followed by the delimiter is consumed as an escaped delimiter and does not
close the literal. -/
def specUntermLit (delim : Char) (src : List Char) : Bool :=
  match src with
  | [] => true
  | ch :: [] =>
    if ch = '\n' then true
    else if ch = '\\' then true
    else if ch = delim then false
    else true
  | ch :: d :: rest2 =>
    if ch = '\n' then true
    else if ch = '\\' then
      (if d = delim then specUntermLit delim rest2 else specUntermLit delim (d :: rest2))
    else if ch = delim then false
    else specUntermLit delim (d :: rest2)

/-- Unterminated block comment, following the specification's words: the
source after the opening marker is exhausted before a `*` immediately
followed by `/` is reached. -/
def specUntermBlock (src : List Char) : Bool :=
  match src with
  | [] => true
  | ch :: rest =>
    if ch = '*' && rest.head? == some '/' then false else specUntermBlock rest

/-- The assertion-error message format per the amended claim: the
parenthesised contents appear exactly when the observed contents are
non-empty, and the expected suffix appears exactly when an expected category
with non-zero enum value was specified. -/
def specTokenMsg (actual : Token) (contents : String) (lineN colN : Nat)
    (expected : Option Token) (expContents : Option String) : String :=
  "unexpected " ++ tokenName actual ++
    (if contents = "" then "" else " (" ++ contents ++ ")") ++
    " on line " ++ toString lineN ++ ", column " ++ toString colN ++
    (match expected with
     | some t =>
       if tokenVal t = 0 then ""
       else "; expected " ++ tokenName t ++
         (match expContents with | some s => " " ++ s | none => "")
     | none => "")

/-! ### Basic facts about positions and the extension loops -/

theorem posLe_refl (p : Nat × Nat) : posLe p p := Or.inr ⟨rfl, Nat.le_refl _⟩

theorem posLe_trans (p q r : Nat × Nat) (h1 : posLe p q) (h2 : posLe q r) : posLe p r := by
  rcases h1 with h1 | ⟨h1, h1'⟩ <;> rcases h2 with h2 | ⟨h2, h2'⟩ <;>
    simp [posLe] at * <;> omega

theorem advancePos_le (ch : Char) (l c : Nat) : posLe (l, c) (advancePos ch l c) := by
  unfold advancePos posLe
  split <;> simp

theorem wsRun_spec (src : List Char) : ∀ l c acc src2 l2 c2 acc2,
    wsRun src l c acc = (src2, l2, c2, acc2) →
    ∃ t, src = t ++ src2 ∧ acc2 = acc ++ t ∧ posLe (l, c) (l2, c2) := by
  induction src with
  | nil =>
    intro l c acc src2 l2 c2 acc2 h
    simp [wsRun] at h
    exact ⟨[], by simp [h.1], by simp [h.2.2.2], h.2.1 ▸ h.2.2.1 ▸ posLe_refl _⟩
  | cons ch rest ih =>
    intro l c acc src2 l2 c2 acc2 h
    by_cases hw : isWhitespace ch
    · rw [wsRun, if_pos hw] at h
      obtain ⟨t, h1, h2, h3⟩ := ih _ _ _ _ _ _ _ h
      exact ⟨ch :: t, by simp [h1], by simp [h2], posLe_trans _ _ _ (advancePos_le ch l c) h3⟩
    · rw [wsRun, if_neg hw] at h
      simp at h
      exact ⟨[], by simp [h.1], by simp [h.2.2.2], h.2.1 ▸ h.2.2.1 ▸ posLe_refl _⟩

theorem identRun_spec (src : List Char) : ∀ l c acc i src2 l2 c2 acc2,
    identRun src l c acc i = (src2, l2, c2, acc2) →
    ∃ t, src = t ++ src2 ∧ acc2 = acc ++ t ∧ posLe (l, c) (l2, c2) := by
  induction src with
  | nil =>
    intro l c acc i src2 l2 c2 acc2 h
    simp [identRun] at h
    exact ⟨[], by simp [h.1], by simp [h.2.2.2], h.2.1 ▸ h.2.2.1 ▸ posLe_refl _⟩
  | cons ch rest ih =>
    intro l c acc i src2 l2 c2 acc2 h
    by_cases hw : isIdent ch i
    · rw [identRun, if_pos hw] at h
      obtain ⟨t, h1, h2, h3⟩ := ih _ _ _ _ _ _ _ _ h
      exact ⟨ch :: t, by simp [h1], by simp [h2], posLe_trans _ _ _ (advancePos_le ch l c) h3⟩
    · rw [identRun, if_neg hw] at h
      simp at h
      exact ⟨[], by simp [h.1], by simp [h.2.2.2], h.2.1 ▸ h.2.2.1 ▸ posLe_refl _⟩

theorem fracRun_spec (src : List Char) : ∀ l c acc src2 l2 c2 acc2,
    fracRun src l c acc = (src2, l2, c2, acc2) →
    ∃ t, src = t ++ src2 ∧ acc2 = acc ++ t ∧ posLe (l, c) (l2, c2) := by
  induction src with
  | nil =>
    intro l c acc src2 l2 c2 acc2 h
    simp [fracRun] at h
    exact ⟨[], by simp [h.1], by simp [h.2.2.2], h.2.1 ▸ h.2.2.1 ▸ posLe_refl _⟩
  | cons ch rest ih =>
    intro l c acc src2 l2 c2 acc2 h
    by_cases hw : isDecimal ch
    · rw [fracRun, if_pos hw] at h
      obtain ⟨t, h1, h2, h3⟩ := ih _ _ _ _ _ _ _ h
      exact ⟨ch :: t, by simp [h1], by simp [h2], posLe_trans _ _ _ (advancePos_le ch l c) h3⟩
    · rw [fracRun, if_neg hw] at h
      simp at h
      exact ⟨[], by simp [h.1], by simp [h.2.2.2], h.2.1 ▸ h.2.2.1 ▸ posLe_refl _⟩

theorem lineRun_spec (src : List Char) : ∀ l c acc i src2 l2 c2 acc2,
    lineRun src l c acc i = (src2, l2, c2, acc2) →
    ∃ t, src = t ++ src2 ∧ acc2 = acc ++ t ∧ posLe (l, c) (l2, c2) := by
  induction src with
  | nil =>
    intro l c acc i src2 l2 c2 acc2 h
    simp [lineRun] at h
    exact ⟨[], by simp [h.1], by simp [h.2.2.2], h.2.1 ▸ h.2.2.1 ▸ posLe_refl _⟩
  | cons ch rest ih =>
    intro l c acc i src2 l2 c2 acc2 h
    by_cases hw : isComment ch i
    · rw [lineRun, if_pos hw] at h
      obtain ⟨t, h1, h2, h3⟩ := ih _ _ _ _ _ _ _ _ h
      exact ⟨ch :: t, by simp [h1], by simp [h2], posLe_trans _ _ _ (advancePos_le ch l c) h3⟩
    · rw [lineRun, if_neg hw] at h
      simp at h
      exact ⟨[], by simp [h.1], by simp [h.2.2.2], h.2.1 ▸ h.2.2.1 ▸ posLe_refl _⟩

theorem intRun_spec (src : List Char) : ∀ l c acc i chk src2 l2 c2 acc2 fl,
    intRun f src l c acc i chk = (src2, l2, c2, acc2, fl) →
    ∃ t, src = t ++ src2 ∧ acc2 = acc ++ t ∧ posLe (l, c) (l2, c2) := by
  induction src with
  | nil =>
    intro l c acc i chk src2 l2 c2 acc2 fl h
    simp [intRun] at h
    exact ⟨[], by simp [h.1], by simp [h.2.2.2.1], h.2.1 ▸ h.2.2.1 ▸ posLe_refl _⟩
  | cons ch rest ih =>
    intro l c acc i chk src2 l2 c2 acc2 fl h
    rw [intRun.eq_def] at h
    simp only [] at h
    by_cases hd : (ch = '.' && f) = true
    · rw [if_pos hd] at h
      simp at h
      refine ⟨[ch], by simp [h.1], by simp [h.2.2.2.1], ?_⟩
      rw [← h.2.1, ← h.2.2.1]
      exact advancePos_le ch l c
    · rw [if_neg hd] at h
      split at h
      · simp at h
        exact ⟨[], by simp [h.1], by simp [h.2.2.2.1], h.2.1 ▸ h.2.2.1 ▸ posLe_refl _⟩
      · split at h
        · obtain ⟨t, h1, h2, h3⟩ := ih _ _ _ _ _ _ _ _ _ _ h
          exact ⟨ch :: t, by simp [h1], by simp [h2],
            posLe_trans _ _ _ (advancePos_le ch l c) h3⟩
        · simp at h
          exact ⟨[], by simp [h.1], by simp [h.2.2.2.1], h.2.1 ▸ h.2.2.1 ▸ posLe_refl _⟩

theorem eRun_spec (f : Bool) (src : List Char) (l c : Nat) (acc : List Char) (isF : Bool) :
    ∀ src2 l2 c2 acc2 fl, eRun f src l c acc isF = (src2, l2, c2, acc2, fl) →
    ∃ t, src = t ++ src2 ∧ acc2 = acc ++ t ∧ posLe (l, c) (l2, c2) := by
  intro src2 l2 c2 acc2 fl h
  match src with
  | [] =>
    simp [eRun] at h
    exact ⟨[], by simp [h.1], by simp [h.2.2.2.1], h.2.1 ▸ h.2.2.1 ▸ posLe_refl _⟩
  | ch :: rest =>
    rw [eRun] at h
    by_cases he : (isENotationChar ch && f) = true
    · rw [if_pos he] at h
      match rest with
      | [] =>
        simp at h
        refine ⟨[ch], by simp [h.1], by simp [h.2.2.2.1], ?_⟩
        rw [← h.2.1, ← h.2.2.1]
        exact advancePos_le ch l c
      | q :: rest2 =>
        by_cases hs : isSign q
        · simp only [hs, if_pos] at h
          rcases hfr : fracRun rest2 (advancePos q (advancePos ch l c).1 (advancePos ch l c).2).1
              (advancePos q (advancePos ch l c).1 (advancePos ch l c).2).2
              (acc ++ [ch] ++ [q]) with ⟨s3, l3, c3, a3⟩
          obtain ⟨t, h1, h2, h3⟩ := fracRun_spec _ _ _ _ _ _ _ _ hfr
          rw [hfr] at h
          simp at h
          refine ⟨ch :: q :: t, by simp [h.1, h1], by simp [← h.2.2.2.1, h2], ?_⟩
          rw [← h.2.1, ← h.2.2.1]
          refine posLe_trans _ _ _ (advancePos_le ch l c) ?_
          exact posLe_trans _ _ _ (advancePos_le q _ _) h3
        · simp only [hs, if_neg, Bool.false_eq_true, not_false_iff] at h
          rcases hfr : fracRun (q :: rest2) (advancePos ch l c).1 (advancePos ch l c).2
              (acc ++ [ch]) with ⟨s3, l3, c3, a3⟩
          obtain ⟨t, h1, h2, h3⟩ := fracRun_spec _ _ _ _ _ _ _ _ hfr
          rw [hfr] at h
          simp at h
          refine ⟨ch :: t, by simp [h.1, h1], by simp [← h.2.2.2.1, h2], ?_⟩
          rw [← h.2.1, ← h.2.2.1]
          exact posLe_trans _ _ _ (advancePos_le ch l c) h3
    · rw [if_neg he] at h
      simp at h
      exact ⟨[], by simp [h.1], by simp [h.2.2.2.1], h.2.1 ▸ h.2.2.1 ▸ posLe_refl _⟩

theorem stringRun_spec : ∀ k src, List.length src ≤ k → ∀ delim l c acc src2 l2 c2 acc2,
    stringRun delim src l c acc = .ok (src2, l2, c2, acc2) →
    ∃ t, src = t ++ src2 ∧ acc2 = acc ++ t ∧ posLe (l, c) (l2, c2) := by
  intro k
  induction k with
  | zero =>
    intro src hk delim l c acc src2 l2 c2 acc2 h
    have hs : src = [] := List.length_eq_zero.mp (Nat.le_zero.mp hk)
    subst hs
    simp [stringRun] at h
  | succ n ih =>
    intro src hk delim l c acc src2 l2 c2 acc2 h
    match src with
    | [] => simp [stringRun] at h
    | ch :: [] =>
      rw [stringRun] at h
      by_cases hn : ch = '\n'
      · simp [hn] at h
      · rw [if_neg hn] at h
        by_cases hcd : ch = delim
        · rw [if_pos hcd] at h
          simp at h
          refine ⟨[ch], by simp [h.1], by simp [h.2.2.2], ?_⟩
          rw [← h.2.1, ← h.2.2.1]
          exact advancePos_le ch l c
        · rw [if_neg hcd] at h
          simp at h
    | ch :: d :: rest2 =>
      rw [stringRun] at h
      by_cases hn : ch = '\n'
      · simp [hn] at h
      · rw [if_neg hn] at h
        simp only [List.length_cons, Nat.add_le_add_iff_right] at hk
        by_cases hb : ch = '\\'
        · rw [if_pos hb] at h
          by_cases hd : d = delim
          · rw [if_pos hd] at h
            by_cases hcd : ch = delim
            · rw [if_pos hcd] at h
              simp at h
              refine ⟨[ch, d], by simp [h.1], by simp [h.2.2.2], ?_⟩
              rw [← h.2.1, ← h.2.2.1]
              exact posLe_trans _ _ _ (advancePos_le ch l c) (advancePos_le d _ _)
            · rw [if_neg hcd] at h
              obtain ⟨t, h1, h2, h3⟩ := ih rest2 (by omega) _ _ _ _ _ _ _ _ h
              refine ⟨ch :: d :: t, by simp [h1], by simp [h2], ?_⟩
              exact posLe_trans _ _ _ (advancePos_le ch l c)
                (posLe_trans _ _ _ (advancePos_le d _ _) h3)
          · rw [if_neg hd] at h
            by_cases hcd : ch = delim
            · rw [if_pos hcd] at h
              simp at h
              refine ⟨[ch], by simp [h.1], by simp [h.2.2.2], ?_⟩
              rw [← h.2.1, ← h.2.2.1]
              exact advancePos_le ch l c
            · rw [if_neg hcd] at h
              obtain ⟨t, h1, h2, h3⟩ := ih (d :: rest2) hk _ _ _ _ _ _ _ _ h
              exact ⟨ch :: t, by simp [h1], by simp [h2],
                posLe_trans _ _ _ (advancePos_le ch l c) h3⟩
        · rw [if_neg hb] at h
          by_cases hcd : ch = delim
          · rw [if_pos hcd] at h
            simp at h
            refine ⟨[ch], by simp [h.1], by simp [h.2.2.2], ?_⟩
            rw [← h.2.1, ← h.2.2.1]
            exact advancePos_le ch l c
          · rw [if_neg hcd] at h
            obtain ⟨t, h1, h2, h3⟩ := ih (d :: rest2) hk _ _ _ _ _ _ _ _ h
            exact ⟨ch :: t, by simp [h1], by simp [h2],
              posLe_trans _ _ _ (advancePos_le ch l c) h3⟩

theorem blockRun_spec : ∀ k src, List.length src ≤ k → ∀ l c acc src2 l2 c2 acc2,
    blockRun src l c acc = .ok (src2, l2, c2, acc2) →
    ∃ t, src = t ++ src2 ∧ acc2 = acc ++ t ∧ posLe (l, c) (l2, c2) := by
  intro k
  induction k with
  | zero =>
    intro src hk l c acc src2 l2 c2 acc2 h
    have hs : src = [] := List.length_eq_zero.mp (Nat.le_zero.mp hk)
    subst hs
    simp [blockRun] at h
  | succ n ih =>
    intro src hk l c acc src2 l2 c2 acc2 h
    match src with
    | [] => simp [blockRun] at h
    | ch :: [] => simp [blockRun] at h
    | ch :: q :: rest2 =>
      rw [blockRun] at h
      simp only [List.length_cons, Nat.add_le_add_iff_right] at hk
      by_cases hcl : (isBlockCommentClose ch 0 && isBlockCommentClose q 1) = true
      · rw [if_pos hcl] at h
        simp at h
        refine ⟨[ch, q], by simp [h.1], by simp [h.2.2.2], ?_⟩
        rw [← h.2.1, ← h.2.2.1]
        exact posLe_trans _ _ _ (advancePos_le ch l c) (advancePos_le q _ _)
      · rw [if_neg hcl] at h
        obtain ⟨t, h1, h2, h3⟩ := ih (q :: rest2) hk _ _ _ _ _ _ _ h
        exact ⟨ch :: t, by simp [h1], by simp [h2],
          posLe_trans _ _ _ (advancePos_le ch l c) h3⟩

theorem numScan_spec (f : Bool) (ch : Char) (src1 : List Char) (l1 c1 : Nat) (r : ScanRes)
    (h : numScan f ch src1 l1 c1 = r) :
    ∃ t, src1 = t ++ r.src ∧ r.contents = ch :: t ∧ posLe (l1, c1) (r.line, r.col) ∧
      r.startLine = l1 ∧ r.startCol = c1 ∧ r.tok ≠ .eof := by
  unfold numScan at h
  rcases ha : (if ch = '.' then (src1, l1, c1, [ch], true)
      else intRun f src1 l1 c1 [ch] 1 none) with ⟨sA, lA, cA, aA, fA⟩
  rw [ha] at h
  simp only [] at h
  have hA : ∃ t1, src1 = t1 ++ sA ∧ aA = [ch] ++ t1 ∧ posLe (l1, c1) (lA, cA) := by
    by_cases hf0 : ch = '.'
    · rw [if_pos hf0] at ha
      simp at ha
      exact ⟨[], by simp [ha.1], by simp [ha.2.2.2.1],
        ha.2.1 ▸ ha.2.2.1 ▸ posLe_refl _⟩
    · rw [if_neg hf0] at ha
      exact intRun_spec _ _ _ _ _ _ _ _ _ _ _ ha
  obtain ⟨t1, h1, h2, h3⟩ := hA
  rcases hb : (if fA then fracRun sA lA cA aA else (sA, lA, cA, aA)) with ⟨sB, lB, cB, aB⟩
  have hB : ∃ t2, sA = t2 ++ sB ∧ aB = aA ++ t2 ∧ posLe (lA, cA) (lB, cB) := by
    by_cases hfA : fA = true
    · rw [if_pos hfA] at hb
      exact fracRun_spec _ _ _ _ _ _ _ _ hb
    · rw [if_neg hfA] at hb
      simp at hb
      exact ⟨[], by simp [hb.1], by simp [hb.2.2.2],
        hb.2.1 ▸ hb.2.2.1 ▸ posLe_refl _⟩
  obtain ⟨t2, h4, h5, h6⟩ := hB
  rw [hb] at h
  simp only [] at h
  rcases he : eRun f sB lB cB aB fA with ⟨sC, lC, cC, aC, fC⟩
  obtain ⟨t3, h7, h8, h9⟩ := eRun_spec _ _ _ _ _ _ _ _ _ _ _ he
  rw [he] at h
  simp only [] at h
  refine ⟨t1 ++ t2 ++ t3, ?_, ?_, ?_, ?_, ?_, ?_⟩
  · rw [← h]
    simp only []
    rw [h1, h4, h7]
    simp
  · rw [← h]
    simp only []
    rw [h8, h5, h2]
    simp
  · rw [← h]
    simp only []
    exact posLe_trans _ _ _ h3 (posLe_trans _ _ _ h6 h9)
  · rw [← h]
  · rw [← h]
  · rw [← h]
    simp only []
    split
    · simp
    · split <;> simp

theorem cmtScan_ok_spec (ch : Char) (pk : Option Char) (src1 : List Char) (l1 c1 : Nat)
    (r : ScanRes) (h : cmtScan ch pk src1 l1 c1 = .ok r) :
    ∃ t, src1 = t ++ r.src ∧ r.contents = ch :: t ∧ posLe (l1, c1) (r.line, r.col) ∧
      r.startLine = l1 ∧ r.startCol = c1 ∧ r.tok = .comment := by
  unfold cmtScan at h
  split at h
  · rcases hbr : blockRun src1 l1 c1 [ch] with e | ⟨s2, l2, c2, acc⟩
    · rw [hbr] at h
      simp at h
    · rw [hbr] at h
      simp only [] at h
      obtain ⟨t, h1, h2, h3⟩ := blockRun_spec src1.length src1 (Nat.le_refl _) _ _ _ _ _ _ _ hbr
      injection h with h
      exact ⟨t, by rw [← h]; exact h1, by rw [← h]; simpa using h2, by rw [← h]; exact h3,
        by rw [← h], by rw [← h], by rw [← h]⟩
  · rcases hlr : lineRun src1 l1 c1 [ch] 1 with ⟨s2, l2, c2, acc⟩
    rw [hlr] at h
    simp only [] at h
    obtain ⟨t, h1, h2, h3⟩ := lineRun_spec _ _ _ _ _ _ _ _ _ hlr
    injection h with h
    exact ⟨t, by rw [← h]; exact h1, by rw [← h]; simpa using h2, by rw [← h]; exact h3,
      by rw [← h], by rw [← h], by rw [← h]⟩


theorem catEnabled_false_ne_eof (m : Mode) (t : Token) (h : catEnabled m t = false) :
    t ≠ Token.eof := by
  cases t <;> simp [catEnabled] at h ⊢

theorem scanCore_ok_spec (g f : Bool) (src : List Char) (l c : Nat) (r : ScanRes) (gs : Bool)
    (h : scanCore g f src l c = .ok (r, gs)) :
    ∃ cons, src = cons ++ r.src ∧ posLe (l, c) (r.line, r.col) ∧
      (r.tok = Token.eof → src = [] ∧ r.src = [] ∧ r.contents = [] ∧ r.line = l ∧ r.col = c) ∧
      (r.tok ≠ Token.eof → cons ≠ []) ∧
      (gs = false → cons = r.contents) ∧
      (gs = true → g = false ∧ r.tok = Token.int ∧ r.contents = []) := by
  match src with
  | [] =>
    simp only [scanCore, nextc, Except.ok.injEq, Prod.mk.injEq] at h
    obtain ⟨hr, hgs⟩ := h
    subst hr
    subst hgs
    refine ⟨[], by simp, ?_, ?_, ?_, ?_, ?_⟩
    · simp only [Nat.add_sub_cancel]
      exact posLe_refl _
    · intro _
      simp [Nat.add_sub_cancel]
    · intro habs
      simp at habs
    · intro _
      rfl
    · intro habs
      simp at habs
  | ch :: rest =>
    unfold scanCore at h
    simp only [nextc] at h
    by_cases hw : isWhitespace ch
    · rw [if_pos hw] at h
      rcases hws : wsRun rest (advancePos ch l c).1 (advancePos ch l c).2 [ch]
        with ⟨s2, l2, c2, acc⟩
      rw [hws] at h
      simp only [Except.ok.injEq, Prod.mk.injEq] at h
      obtain ⟨hr, hgs⟩ := h
      subst hr
      subst hgs
      obtain ⟨t, h1, h2, h3⟩ := wsRun_spec _ _ _ _ _ _ _ _ hws
      refine ⟨ch :: t, by simp [h1], ?_, ?_, ?_, ?_, ?_⟩
      · exact posLe_trans _ _ _ (advancePos_le ch l c) h3
      · intro habs
        simp at habs
      · intro _
        simp
      · intro _
        simpa using h2.symm
      · intro habs
        simp at habs
    · rw [if_neg hw] at h
      by_cases hi : isIdent ch 0
      · rw [if_pos hi] at h
        rcases hid : identRun rest (advancePos ch l c).1 (advancePos ch l c).2 [ch] 1
          with ⟨s2, l2, c2, acc⟩
        rw [hid] at h
        simp only [Except.ok.injEq, Prod.mk.injEq] at h
        obtain ⟨hr, hgs⟩ := h
        subst hr
        subst hgs
        obtain ⟨t, h1, h2, h3⟩ := identRun_spec _ _ _ _ _ _ _ _ _ hid
        refine ⟨ch :: t, by simp [h1], ?_, ?_, ?_, ?_, ?_⟩
        · exact posLe_trans _ _ _ (advancePos_le ch l c) h3
        · intro habs
          simp only [] at habs
          split at habs <;> simp at habs
        · intro _
          simp
        · intro _
          simpa using h2.symm
        · intro habs
          simp at habs
      · rw [if_neg hi] at h
        by_cases hs : isStringDelimiter ch
        · rw [if_pos hs] at h
          rcases hsr : stringRun ch rest (advancePos ch l c).1 (advancePos ch l c).2 [ch]
            with e | ⟨s2, l2, c2, acc⟩
          · rw [hsr] at h
            simp at h
          · rw [hsr] at h
            simp only [Except.ok.injEq, Prod.mk.injEq] at h
            obtain ⟨hr, hgs⟩ := h
            subst hr
            subst hgs
            obtain ⟨t, h1, h2, h3⟩ := stringRun_spec rest.length rest (Nat.le_refl _) _ _ _ _ _ _ _ _ hsr
            refine ⟨ch :: t, by simp [h1], ?_, ?_, ?_, ?_, ?_⟩
            · exact posLe_trans _ _ _ (advancePos_le ch l c) h3
            · intro habs
              simp at habs
            · intro _
              simp
            · intro _
              simpa using h2.symm
            · intro habs
              simp at habs
        · rw [if_neg hs] at h
          by_cases hn : (isDecimal ch || isSign ch || (ch == '.' && decimalHead rest.head?)) = true
          · rw [if_pos hn] at h
            by_cases hg : g = true
            · rw [hg] at h
              simp only [Bool.not_true, Bool.false_eq_true, if_false, Except.ok.injEq,
                Prod.mk.injEq] at h
              obtain ⟨hr, hgs⟩ := h
              subst hgs
              obtain ⟨t, h1, h2, h3, h4, h5, h6⟩ := numScan_spec f ch rest _ _ _ hr
              refine ⟨ch :: t, by simp [h1], ?_, ?_, ?_, ?_, ?_⟩
              · exact posLe_trans _ _ _ (advancePos_le ch l c) h3
              · intro habs
                exact absurd habs h6
              · intro _
                simp
              · intro _
                simp [h2]
              · intro habs
                simp at habs
            · have hg' : g = false := by
                cases g
                · rfl
                · exact absurd rfl hg
              rw [hg'] at h
              simp only [Bool.not_false, if_true, Except.ok.injEq, Prod.mk.injEq] at h
              obtain ⟨hr, hgs⟩ := h
              subst hr
              subst hgs
              refine ⟨[ch], by simp, ?_, ?_, ?_, ?_, ?_⟩
              · exact advancePos_le ch l c
              · intro habs
                simp at habs
              · intro _
                simp
              · intro habs
                simp at habs
              · intro _
                exact ⟨hg', rfl, rfl⟩
          · rw [if_neg hn] at h
            by_cases hc : (isComment ch 0 || isBlockCommentOpen ch 0) = true
            · rw [if_pos hc] at h
              rcases hcs : cmtScan ch rest.head? rest (advancePos ch l c).1 (advancePos ch l c).2
                with e | r2
              · rw [hcs] at h
                simp at h
              · rw [hcs] at h
                simp only [Except.ok.injEq, Prod.mk.injEq] at h
                obtain ⟨hr, hgs⟩ := h
                subst hgs
                obtain ⟨t, h1, h2, h3, h4, h5, h6⟩ := cmtScan_ok_spec _ _ _ _ _ _ hcs
                subst hr
                refine ⟨ch :: t, by simp [h1], ?_, ?_, ?_, ?_, ?_⟩
                · exact posLe_trans _ _ _ (advancePos_le ch l c) h3
                · intro habs
                  rw [h6] at habs
                  simp at habs
                · intro _
                  simp
                · intro _
                  simp [h2]
                · intro habs
                  simp at habs
            · rw [if_neg hc] at h
              simp only [Except.ok.injEq, Prod.mk.injEq] at h
              obtain ⟨hr, hgs⟩ := h
              subst hr
              subst hgs
              refine ⟨[ch], by simp, ?_, ?_, ?_, ?_, ?_⟩
              · exact advancePos_le ch l c
              · intro habs
                simp at habs
              · intro _
                simp
              · intro _
                simp
              · intro habs
                simp at habs

theorem stringRun_err_msg : ∀ k src, List.length src ≤ k → ∀ delim l c acc e,
    stringRun delim src l c acc = .error e → e = "literal not terminated" := by
  intro k
  induction k with
  | zero =>
    intro src hk delim l c acc e h
    have hs : src = [] := List.length_eq_zero.mp (Nat.le_zero.mp hk)
    subst hs
    simp [stringRun] at h
    exact h.symm
  | succ n ih =>
    intro src hk delim l c acc e h
    match src with
    | [] =>
      simp [stringRun] at h
      exact h.symm
    | ch :: [] =>
      rw [stringRun] at h
      by_cases hn' : ch = '\n'
      · rw [if_pos hn'] at h
        simp at h
        exact h.symm
      · rw [if_neg hn'] at h
        by_cases hcd : ch = delim
        · rw [if_pos hcd] at h
          simp at h
        · rw [if_neg hcd] at h
          simp at h
          exact h.symm
    | ch :: d :: rest2 =>
      rw [stringRun] at h
      simp only [List.length_cons, Nat.add_le_add_iff_right] at hk
      by_cases hn' : ch = '\n'
      · rw [if_pos hn'] at h
        simp at h
        exact h.symm
      · rw [if_neg hn'] at h
        by_cases hb : ch = '\\'
        · rw [if_pos hb] at h
          by_cases hd : d = delim
          · rw [if_pos hd] at h
            by_cases hcd : ch = delim
            · rw [if_pos hcd] at h
              simp at h
            · rw [if_neg hcd] at h
              exact ih rest2 (by omega) _ _ _ _ _ h
          · rw [if_neg hd] at h
            by_cases hcd : ch = delim
            · rw [if_pos hcd] at h
              simp at h
            · rw [if_neg hcd] at h
              exact ih (d :: rest2) hk _ _ _ _ _ h
        · rw [if_neg hb] at h
          by_cases hcd : ch = delim
          · rw [if_pos hcd] at h
            simp at h
          · rw [if_neg hcd] at h
            exact ih (d :: rest2) hk _ _ _ _ _ h

theorem blockRun_err_msg : ∀ k src, List.length src ≤ k → ∀ l c acc e,
    blockRun src l c acc = .error e → e = "comment not terminated" := by
  intro k
  induction k with
  | zero =>
    intro src hk l c acc e h
    have hs : src = [] := List.length_eq_zero.mp (Nat.le_zero.mp hk)
    subst hs
    simp [blockRun] at h
    exact h.symm
  | succ n ih =>
    intro src hk l c acc e h
    match src with
    | [] =>
      simp [blockRun] at h
      exact h.symm
    | ch :: [] =>
      simp [blockRun] at h
      exact h.symm
    | ch :: q :: rest2 =>
      rw [blockRun] at h
      simp only [List.length_cons, Nat.add_le_add_iff_right] at hk
      by_cases hcl : (isBlockCommentClose ch 0 && isBlockCommentClose q 1) = true
      · rw [if_pos hcl] at h
        simp at h
      · rw [if_neg hcl] at h
        exact ih (q :: rest2) hk _ _ _ _ h

theorem cmtScan_err (ch : Char) (pk : Option Char) (src1 : List Char) (l1 c1 : Nat) (e : String)
    (h : cmtScan ch pk src1 l1 c1 = .error e) : e = "comment not terminated" := by
  unfold cmtScan at h
  split at h
  · rcases hbr : blockRun src1 l1 c1 [ch] with e' | ⟨s2, l2, c2, acc⟩
    · rw [hbr] at h
      simp at h
      exact h ▸ blockRun_err_msg src1.length src1 (Nat.le_refl _) _ _ _ _ hbr
    · rw [hbr] at h
      simp at h
  · rcases hlr : lineRun src1 l1 c1 [ch] 1 with ⟨s2, l2, c2, acc⟩
    rw [hlr] at h
    simp at h

theorem scanCore_err (g f : Bool) (src : List Char) (l c : Nat) (e : String)
    (h : scanCore g f src l c = .error e) :
    e = "literal not terminated" ∨ e = "comment not terminated" := by
  match src with
  | [] => simp [scanCore, nextc] at h
  | ch :: rest =>
    unfold scanCore at h
    simp only [nextc] at h
    by_cases hw : isWhitespace ch
    · rw [if_pos hw] at h
      rcases hws : wsRun rest (advancePos ch l c).1 (advancePos ch l c).2 [ch]
        with ⟨s2, l2, c2, acc⟩
      rw [hws] at h
      simp at h
    · rw [if_neg hw] at h
      by_cases hi : isIdent ch 0
      · rw [if_pos hi] at h
        rcases hid : identRun rest (advancePos ch l c).1 (advancePos ch l c).2 [ch] 1
          with ⟨s2, l2, c2, acc⟩
        rw [hid] at h
        simp at h
      · rw [if_neg hi] at h
        by_cases hs : isStringDelimiter ch
        · rw [if_pos hs] at h
          rcases hsr : stringRun ch rest (advancePos ch l c).1 (advancePos ch l c).2 [ch]
            with e' | ⟨s2, l2, c2, acc⟩
          · rw [hsr] at h
            simp at h
            exact Or.inl (h ▸ stringRun_err_msg rest.length rest (Nat.le_refl _) _ _ _ _ _ hsr)
          · rw [hsr] at h
            simp at h
        · rw [if_neg hs] at h
          by_cases hn : (isDecimal ch || isSign ch || (ch == '.' && decimalHead rest.head?)) = true
          · rw [if_pos hn] at h
            by_cases hg : g = true
            · rw [hg] at h
              simp at h
            · have hg' : g = false := by
                cases g
                · rfl
                · exact absurd rfl hg
              rw [hg'] at h
              simp at h
          · rw [if_neg hn] at h
            by_cases hc : (isComment ch 0 || isBlockCommentOpen ch 0) = true
            · rw [if_pos hc] at h
              rcases hcs : cmtScan ch rest.head? rest (advancePos ch l c).1 (advancePos ch l c).2
                with e' | r2
              · rw [hcs] at h
                simp at h
                exact Or.inr (h ▸ cmtScan_err _ _ _ _ _ _ hcs)
              · rw [hcs] at h
                simp at h
            · rw [if_neg hc] at h
              simp at h

theorem append_ne_nil_length {cons rest src : List Char} (h : src = cons ++ rest)
    (hne : cons ≠ []) : rest.length < src.length := by
  subst h
  cases cons with
  | nil => exact absurd rfl hne
  | cons a t => simp; omega

theorem scanF_ok_spec (m : Mode) : ∀ n src l c r, scanF m n src l c = .ok r →
    ∃ pre, src = pre ++ r.contents ++ r.src ∧ posLe (l, c) (r.line, r.col) ∧
      (r.tok ≠ Token.eof → r.contents ≠ []) ∧ catEnabled m r.tok = true := by
  intro n
  induction n with
  | zero =>
    intro src l c r h
    simp [scanF, fuelMsg] at h
  | succ n ih =>
    intro src l c r h
    rw [scanF] at h
    rcases hsc : scanCore (m.ints || m.floats) m.floats src l c with e | ⟨r0, gs⟩
    · rw [hsc] at h
      simp at h
    · rw [hsc] at h
      simp only [] at h
      obtain ⟨cons, hc1, hc2, _, hc4, hc5, _⟩ :=
        scanCore_ok_spec _ _ _ _ _ _ _ hsc
      by_cases hgs : gs = true
      · rw [hgs] at h
        simp only [if_true] at h
        obtain ⟨pre, h1, h2, h3, h4⟩ := ih _ _ _ _ h
        exact ⟨cons ++ pre, by rw [hc1, h1]; simp, posLe_trans _ _ _ hc2 h2, h3, h4⟩
      · have hgs' : gs = false := by
          cases gs
          · rfl
          · exact absurd rfl hgs
        rw [hgs'] at h
        simp only [Bool.false_eq_true, if_false] at h
        by_cases hce : catEnabled m r0.tok = true
        · rw [hce] at h
          simp only [if_true] at h
          injection h with h
          subst h
          refine ⟨[], by rw [hc1, hc5 hgs']; simp, hc2, ?_, hce⟩
          intro hne
          rw [← hc5 hgs']
          exact hc4 hne
        · have hce' : catEnabled m r0.tok = false := by
            cases hq : catEnabled m r0.tok
            · rfl
            · exact absurd hq hce
          rw [hce'] at h
          simp only [Bool.false_eq_true, if_false] at h
          obtain ⟨pre, h1, h2, h3, h4⟩ := ih _ _ _ _ h
          exact ⟨cons ++ pre, by rw [hc1, h1]; simp, posLe_trans _ _ _ hc2 h2, h3, h4⟩

theorem scanF_stable (m : Mode) : ∀ k src, List.length src ≤ k → ∀ l c n1 n2,
    List.length src < n1 → List.length src < n2 →
    scanF m n1 src l c = scanF m n2 src l c := by
  intro k
  induction k with
  | zero =>
    intro src hk l c n1 n2 h1 h2
    have hs : src = [] := List.length_eq_zero.mp (Nat.le_zero.mp hk)
    subst hs
    match n1, n2 with
    | a + 1, b + 1 =>
      rw [scanF, scanF]
      rcases hsc : scanCore (m.ints || m.floats) m.floats [] l c with e | ⟨r0, gs⟩
      · rfl
      · simp only []
        obtain ⟨cons, hc1, _, _, hc4, _, hc6⟩ := scanCore_ok_spec _ _ _ _ _ _ _ hsc
        by_cases hgs : gs = true
        · obtain ⟨_, htok, _⟩ := hc6 hgs
          have : cons ≠ [] := hc4 (by rw [htok]; simp)
          have := append_ne_nil_length hc1 this
          simp at this
        · have hgs' : gs = false := by
            cases gs
            · rfl
            · exact absurd rfl hgs
          subst hgs'
          simp only [Bool.false_eq_true, if_false]
          by_cases hce : catEnabled m r0.tok = true
          · rw [hce]
            simp
          · have hce' : catEnabled m r0.tok = false := by
              cases hq : catEnabled m r0.tok
              · rfl
              · exact absurd hq hce
            have := hc4 (catEnabled_false_ne_eof m r0.tok hce')
            have := append_ne_nil_length hc1 this
            simp at this
  | succ k ih =>
    intro src hk l c n1 n2 h1 h2
    match n1, n2 with
    | a + 1, b + 1 =>
      rw [scanF, scanF]
      rcases hsc : scanCore (m.ints || m.floats) m.floats src l c with e | ⟨r0, gs⟩
      · rfl
      · simp only []
        obtain ⟨cons, hc1, _, _, hc4, _, hc6⟩ := scanCore_ok_spec _ _ _ _ _ _ _ hsc
        by_cases hgs : gs = true
        · subst hgs
          simp only [if_true]
          obtain ⟨_, htok, _⟩ := hc6 rfl
          have hne : cons ≠ [] := hc4 (by rw [htok]; simp)
          have hlen := append_ne_nil_length hc1 hne
          exact ih r0.src (by omega) _ _ _ _ (by omega) (by omega)
        · have hgs' : gs = false := by
            cases gs
            · rfl
            · exact absurd rfl hgs
          subst hgs'
          simp only [Bool.false_eq_true, if_false]
          by_cases hce : catEnabled m r0.tok = true
          · rw [hce]
            simp
          · have hce' : catEnabled m r0.tok = false := by
              cases hq : catEnabled m r0.tok
              · rfl
              · exact absurd hq hce
            rw [hce']
            simp only [Bool.false_eq_true, if_false]
            have hne := hc4 (catEnabled_false_ne_eof m r0.tok hce')
            have hlen := append_ne_nil_length hc1 hne
            exact ih r0.src (by omega) _ _ _ _ (by omega) (by omega)

theorem scanT_unfold (m : Mode) (src : List Char) (l c : Nat) :
    scanT m src l c =
      match scanCore (m.ints || m.floats) m.floats src l c with
      | .error e => .error e
      | .ok (r, gs) =>
        if gs then scanT m r.src r.line r.col
        else if catEnabled m r.tok then .ok r
        else scanT m r.src r.line r.col := by
  unfold scanT
  rw [scanF]
  rcases hsc : scanCore (m.ints || m.floats) m.floats src l c with e | ⟨r0, gs⟩
  · rfl
  · simp only []
    obtain ⟨cons, hc1, _, _, hc4, _, hc6⟩ := scanCore_ok_spec _ _ _ _ _ _ _ hsc
    by_cases hgs : gs = true
    · subst hgs
      simp only [if_true]
      obtain ⟨_, htok, _⟩ := hc6 rfl
      have hne : cons ≠ [] := hc4 (by rw [htok]; simp)
      have hlen := append_ne_nil_length hc1 hne
      exact scanF_stable m src.length r0.src (by omega) _ _ _ _ (by omega) (by omega)
    · have hgs' : gs = false := by
        cases gs
        · rfl
        · exact absurd rfl hgs
      subst hgs'
      simp only [Bool.false_eq_true, if_false]
      by_cases hce : catEnabled m r0.tok = true
      · rw [hce]
        simp
      · have hce' : catEnabled m r0.tok = false := by
          cases hq : catEnabled m r0.tok
          · rfl
          · exact absurd hq hce
        rw [hce']
        simp only [Bool.false_eq_true, if_false]
        have hne := hc4 (catEnabled_false_ne_eof m r0.tok hce')
        have hlen := append_ne_nil_length hc1 hne
        exact scanF_stable m src.length r0.src (by omega) _ _ _ _ (by omega) (by omega)

theorem scanT_ok_spec (m : Mode) (src : List Char) (l c : Nat) (r : ScanRes)
    (h : scanT m src l c = .ok r) :
    ∃ pre, src = pre ++ r.contents ++ r.src ∧ posLe (l, c) (r.line, r.col) ∧
      (r.tok ≠ Token.eof → r.contents ≠ []) ∧ catEnabled m r.tok = true :=
  scanF_ok_spec m _ _ _ _ _ h

theorem mid_append_length {pre mid rest src : List Char} (h : src = pre ++ mid ++ rest)
    (hne : mid ≠ []) : rest.length < src.length := by
  subst h
  cases mid with
  | nil => exact absurd rfl hne
  | cons a t => simp; omega

theorem tokensF_stable (m : Mode) : ∀ k src, List.length src ≤ k → ∀ l c n1 n2,
    List.length src < n1 → List.length src < n2 →
    tokensF m n1 src l c = tokensF m n2 src l c := by
  intro k
  induction k with
  | zero =>
    intro src hk l c n1 n2 h1 h2
    have hs : src = [] := List.length_eq_zero.mp (Nat.le_zero.mp hk)
    subst hs
    match n1, n2 with
    | a + 1, b + 1 =>
      rw [tokensF, tokensF]
      rcases hsc : scanT m [] l c with e | r
      · rfl
      · simp only []
        obtain ⟨pre, hp1, _, hp3, _⟩ := scanT_ok_spec _ _ _ _ _ hsc
        by_cases he : r.tok = Token.eof
        · rw [if_pos he, if_pos he]
        · have := hp3 he
          have := mid_append_length hp1 this
          simp at this
  | succ k ih =>
    intro src hk l c n1 n2 h1 h2
    match n1, n2 with
    | a + 1, b + 1 =>
      rw [tokensF, tokensF]
      rcases hsc : scanT m src l c with e | r
      · rfl
      · simp only []
        obtain ⟨pre, hp1, _, hp3, _⟩ := scanT_ok_spec _ _ _ _ _ hsc
        by_cases he : r.tok = Token.eof
        · rw [if_pos he, if_pos he]
        · rw [if_neg he, if_neg he]
          have hlen := mid_append_length hp1 (hp3 he)
          rw [ih r.src (by omega) _ _ a b (by omega) (by omega)]

theorem tokensT_unfold (m : Mode) (src : List Char) (l c : Nat) :
    tokensT m src l c =
      match scanT m src l c with
      | .error e => .error e
      | .ok r =>
        if r.tok = Token.eof then .ok [r]
        else
          match tokensT m r.src r.line r.col with
          | .error e => .error e
          | .ok rest => .ok (r :: rest) := by
  unfold tokensT
  rw [tokensF]
  rcases hsc : scanT m src l c with e | r
  · rfl
  · simp only []
    obtain ⟨pre, hp1, _, hp3, _⟩ := scanT_ok_spec _ _ _ _ _ hsc
    by_cases he : r.tok = Token.eof
    · rw [if_pos he, if_pos he]
    · rw [if_neg he, if_neg he]
      have hlen := mid_append_length hp1 (hp3 he)
      rw [tokensF_stable m r.src.length r.src (Nat.le_refl _) r.line r.col src.length
        (r.src.length + 1) (by omega) (by omega)]

theorem scanT_nil (m : Mode) (l c : Nat) :
    scanT m [] l c = .ok ⟨Token.eof, [], l, c, [], l, c⟩ := by
  rw [scanT_unfold]
  simp only [scanCore, nextc, Nat.add_sub_cancel]
  rfl

theorem scanT_err_kinds (m : Mode) : ∀ k src, List.length src ≤ k → ∀ l c e,
    scanT m src l c = .error e →
    e = "literal not terminated" ∨ e = "comment not terminated" := by
  intro k
  induction k with
  | zero =>
    intro src hk l c e h
    have hs : src = [] := List.length_eq_zero.mp (Nat.le_zero.mp hk)
    subst hs
    rw [scanT_nil] at h
    simp at h
  | succ k ih =>
    intro src hk l c e h
    rw [scanT_unfold] at h
    rcases hsc : scanCore (m.ints || m.floats) m.floats src l c with e' | ⟨r0, gs⟩
    · rw [hsc] at h
      simp at h
      exact h ▸ scanCore_err _ _ _ _ _ _ hsc
    · rw [hsc] at h
      simp only [] at h
      obtain ⟨cons, hc1, _, _, hc4, _, hc6⟩ := scanCore_ok_spec _ _ _ _ _ _ _ hsc
      by_cases hgs : gs = true
      · subst hgs
        simp only [if_true] at h
        obtain ⟨_, htok, _⟩ := hc6 rfl
        have hne : cons ≠ [] := hc4 (by rw [htok]; simp)
        have hlen := append_ne_nil_length hc1 hne
        exact ih r0.src (by omega) _ _ _ h
      · have hgs' : gs = false := by
          cases gs
          · rfl
          · exact absurd rfl hgs
        subst hgs'
        simp only [Bool.false_eq_true, if_false] at h
        by_cases hce : catEnabled m r0.tok = true
        · rw [hce] at h
          simp at h
        · have hce' : catEnabled m r0.tok = false := by
            cases hq : catEnabled m r0.tok
            · rfl
            · exact absurd hq hce
          rw [hce'] at h
          simp only [Bool.false_eq_true, if_false] at h
          have hne := hc4 (catEnabled_false_ne_eof m r0.tok hce')
          have hlen := append_ne_nil_length hc1 hne
          exact ih r0.src (by omega) _ _ _ h

theorem scan_nil_state (m : Mode) (s : ScanState) (h : s.src = []) :
    scan m s = .ok (Token.eof, exhaustState s) := by
  unfold scan
  rw [h, scanT_nil]
  rfl

/-- Claim C2: scan() on an exhausted cursor returns eof with empty contents
and with startPos and endPos unchanged; the post-eof state is a fixed point of
scan(), so eof is returned at most once with advancing position and every
subsequent call repeats it; in particular a fresh scanner over the empty
source yields eof with startPos = endPos = (1, 0) on every call. -/
theorem c2_eof_idempotent (m : Mode) (s : ScanState) (h : s.src = []) :
    scan m s = .ok (Token.eof, exhaustState s) ∧
    exhaustState (exhaustState s) = exhaustState s ∧
    scan m (exhaustState s) = .ok (Token.eof, exhaustState s) ∧
    (exhaustState s).contents = [] ∧
    ((exhaustState s).line, (exhaustState s).column) = (s.line, s.column) ∧
    scan m (initState []) = .ok (Token.eof, ⟨[], 1, 0, [], some Token.eof, 1, 0⟩) := by
  refine ⟨scan_nil_state m s h, rfl, ?_, rfl, rfl, ?_⟩
  · have h2 := scan_nil_state m (exhaustState s) rfl
    rw [h2]
    rfl
  · exact scan_nil_state m (initState []) rfl

theorem c2_eof_idempotent_witness :
    scan defaultMode (initState []) = .ok (Token.eof, exhaustState (initState [])) :=
  (c2_eof_idempotent defaultMode (initState []) rfl).1

/-- Claim C4: the cursor position never decreases over a run.  Consuming a
newline increments the line and resets the column to 0; consuming any other
character increments the column by one; every successful scan() leaves the
end position lexicographically no smaller than before; and on the exhausted
source the reported end position equals the position before the attempted
read (the column increment of next() is rolled back), so repeated eof scans
leave the position unchanged. -/
theorem c4_position_monotone :
    (∀ ch rest l c, ch = '\n' → nextc (ch :: rest) l c = (some ch, rest, l + 1, 0)) ∧
    (∀ ch rest l c, ch ≠ '\n' → nextc (ch :: rest) l c = (some ch, rest, l, c + 1)) ∧
    (∀ m src l c r, scanT m src l c = .ok r → posLe (l, c) (r.line, r.col)) ∧
    (∀ m l c, scanT m [] l c = .ok ⟨Token.eof, [], l, c, [], l, c⟩) := by
  refine ⟨?_, ?_, ?_, scanT_nil⟩
  · intro ch rest l c h
    simp [nextc, advancePos, h]
  · intro ch rest l c h
    simp [nextc, advancePos, h]
  · intro m src l c r h
    obtain ⟨pre, _, h2, _, _⟩ := scanT_ok_spec _ _ _ _ _ h
    exact h2

theorem c4_position_monotone_witness :
    nextc ['\n'] 3 7 = (some '\n', [], 4, 0) ∧
    nextc ['a'] 3 7 = (some 'a', [], 3, 8) ∧
    posLe (1, 0) (1, 3) :=
  ⟨c4_position_monotone.1 '\n' [] 3 7 rfl,
   c4_position_monotone.2.1 'a' [] 3 7 (by decide),
   c4_position_monotone.2.2.1 defaultMode ['f', 'o', 'o'] 1 0
     ⟨Token.identifier, [], 1, 3, ['f', 'o', 'o'], 1, 1⟩ (by decide)⟩

/-- Claim C10: after every scan() call that returns normally the public
currentToken field equals the returned category, and for every non-eof return
the contents are non-empty and are exactly the span of characters the token
consumed (the characters right after any skipped prefix), hence begin with
the token's first consumed character. -/
theorem c10_current_token (m : Mode) (s : ScanState) (t : Token) (s2 : ScanState)
    (h : scan m s = .ok (t, s2)) :
    s2.currentToken = some t ∧
    (t ≠ Token.eof → s2.contents ≠ [] ∧ ∃ pre, s.src = pre ++ s2.contents ++ s2.src) := by
  unfold scan at h
  rcases hsc : scanT m s.src s.line s.column with e | r
  · rw [hsc] at h
    simp at h
  · rw [hsc] at h
    simp only [Except.ok.injEq, Prod.mk.injEq] at h
    obtain ⟨ht, hs2⟩ := h
    subst ht
    subst hs2
    obtain ⟨pre, h1, _, h3, _⟩ := scanT_ok_spec _ _ _ _ _ hsc
    exact ⟨rfl, fun hne => ⟨h3 hne, pre, h1⟩⟩

theorem c10_current_token_witness :
    (⟨[], 1, 2, ['a', 'b'], some Token.identifier, 1, 1⟩ : ScanState).currentToken =
        some Token.identifier ∧
    (Token.identifier ≠ Token.eof →
      (⟨[], 1, 2, ['a', 'b'], some Token.identifier, 1, 1⟩ : ScanState).contents ≠ [] ∧
      ∃ pre, (initState ['a', 'b']).src =
        pre ++ (⟨[], 1, 2, ['a', 'b'], some Token.identifier, 1, 1⟩ : ScanState).contents ++
          (⟨[], 1, 2, ['a', 'b'], some Token.identifier, 1, 1⟩ : ScanState).src) :=
  c10_current_token defaultMode (initState ['a', 'b']) Token.identifier
    ⟨[], 1, 2, ['a', 'b'], some Token.identifier, 1, 1⟩ (by decide)

theorem catEnabled_all (m : Mode) (h1 : m.ws = true) (h2 : m.idents = true)
    (h3 : m.strs = true) (h4 : m.cmts = true) (t : Token) : catEnabled m t = true := by
  cases t <;> simp [catEnabled, h1, h2, h3, h4]

theorem scanT_all_consumes (m : Mode) (h1 : m.ws = true) (h2 : m.idents = true)
    (h3 : m.ints = true) (h4 : m.floats = true) (h5 : m.strs = true) (h6 : m.cmts = true)
    (src : List Char) (l c : Nat) (r : ScanRes) (h : scanT m src l c = .ok r) :
    src = r.contents ++ r.src ∧
    (r.tok = Token.eof → src = [] ∧ r.contents = [] ∧ r.src = []) := by
  rw [scanT_unfold] at h
  rcases hsc : scanCore (m.ints || m.floats) m.floats src l c with e | ⟨r0, gs⟩
  · rw [hsc] at h
    simp at h
  · rw [hsc] at h
    simp only [] at h
    obtain ⟨cons, hc1, _, hc3, _, hc5, hc6⟩ := scanCore_ok_spec _ _ _ _ _ _ _ hsc
    by_cases hgs : gs = true
    · obtain ⟨hg, _, _⟩ := hc6 hgs
      rw [h3, h4] at hg
      simp at hg
    · have hgs' : gs = false := by
        cases gs
        · rfl
        · exact absurd rfl hgs
      subst hgs'
      simp only [Bool.false_eq_true, if_false, catEnabled_all m h1 h2 h5 h6 r0.tok,
        if_true] at h
      injection h with h
      subst h
      refine ⟨by rw [hc1, hc5 rfl], ?_⟩
      intro he
      obtain ⟨hsrc, hrsrc, hcont, _, _⟩ := hc3 he
      exact ⟨hsrc, hcont, hrsrc⟩

/-- Claim C1: with all six maskable categories enabled, a run of scan() calls
that reaches eof without an error reproduces the source exactly: the
concatenation of the contents of the emitted tokens, in order (eof
contributing the empty string), equals the original character sequence. -/
theorem c1_lossless (m : Mode) (hws : m.ws = true) (hid : m.idents = true)
    (hin : m.ints = true) (hfl : m.floats = true) (hst : m.strs = true) (hcm : m.cmts = true)
    (src : List Char) (toks : List ScanRes) (h : tokens m src = .ok toks) :
    (toks.map ScanRes.contents).join = src := by
  have key : ∀ k src, List.length src ≤ k → ∀ l c toks,
      tokensT m src l c = .ok toks → (toks.map ScanRes.contents).join = src := by
    intro k
    induction k with
    | zero =>
      intro src hk l c toks h
      have hs : src = [] := List.length_eq_zero.mp (Nat.le_zero.mp hk)
      subst hs
      rw [tokensT_unfold, scanT_nil] at h
      simp at h
      subst h
      simp
    | succ k ih =>
      intro src hk l c toks h
      rw [tokensT_unfold] at h
      rcases hsc : scanT m src l c with e | r
      · rw [hsc] at h
        simp at h
      · rw [hsc] at h
        simp only [] at h
        obtain ⟨hdec, heof⟩ := scanT_all_consumes m hws hid hin hfl hst hcm _ _ _ _ hsc
        by_cases he : r.tok = Token.eof
        · rw [if_pos he] at h
          injection h with h
          subst h
          obtain ⟨hsrc, hcont, _⟩ := heof he
          simp [hsrc, hcont]
        · rw [if_neg he] at h
          rcases hrest : tokensT m r.src r.line r.col with e2 | rest
          · rw [hrest] at h
            simp at h
          · rw [hrest] at h
            simp only [Except.ok.injEq] at h
            subst h
            obtain ⟨pre, hp1, _, hp3, _⟩ := scanT_ok_spec _ _ _ _ _ hsc
            have hlen := mid_append_length hp1 (hp3 he)
            have := ih r.src (by omega) _ _ _ hrest
            simp [this, ← hdec]
  exact key src.length src (Nat.le_refl _) 1 0 toks h

theorem c1_lossless_witness :
    (([⟨Token.identifier, [' ', '1'], 1, 1, ['a'], 1, 1⟩,
       ⟨Token.whitespace, ['1'], 1, 2, [' '], 1, 2⟩,
       ⟨Token.int, [], 1, 3, ['1'], 1, 3⟩,
       ⟨Token.eof, [], 1, 3, [], 1, 3⟩] : List ScanRes).map ScanRes.contents).join =
      ['a', ' ', '1'] :=
  c1_lossless allMode rfl rfl rfl rfl rfl rfl ['a', ' ', '1']
    [⟨Token.identifier, [' ', '1'], 1, 1, ['a'], 1, 1⟩,
     ⟨Token.whitespace, ['1'], 1, 2, [' '], 1, 2⟩,
     ⟨Token.int, [], 1, 3, ['1'], 1, 3⟩,
     ⟨Token.eof, [], 1, 3, [], 1, 3⟩] (by decide)

theorem mcat_set_ints (k : MCat) (b : Bool) (m : Mode) : (k.set b m).ints = m.ints := by
  cases k <;> rfl

theorem mcat_set_floats (k : MCat) (b : Bool) (m : Mode) : (k.set b m).floats = m.floats := by
  cases k <;> rfl

theorem catEnabled_set (k : MCat) (b : Bool) (m : Mode) (t : Token) :
    catEnabled (k.set b m) t = if k.has t then b else catEnabled m t := by
  cases k <;> cases t <;> simp [MCat.set, MCat.has, catEnabled]

theorem mcat_has_eof (k : MCat) : k.has Token.eof = false := by
  cases k <;> rfl

theorem scanT_sim (k : MCat) (m : Mode) : ∀ bound src, List.length src ≤ bound → ∀ l c,
    scanT (k.set false m) src l c =
      match scanT (k.set true m) src l c with
      | .error e => .error e
      | .ok r =>
        if k.has r.tok then scanT (k.set false m) r.src r.line r.col else .ok r := by
  intro bound
  induction bound with
  | zero =>
    intro src hk l c
    have hs : src = [] := List.length_eq_zero.mp (Nat.le_zero.mp hk)
    subst hs
    rw [scanT_nil, scanT_nil]
    simp [mcat_has_eof]
  | succ bound ih =>
    intro src hk l c
    rw [scanT_unfold (k.set false m) src l c, scanT_unfold (k.set true m) src l c]
    rw [mcat_set_ints, mcat_set_floats, mcat_set_ints, mcat_set_floats]
    rcases hsc : scanCore (m.ints || m.floats) m.floats src l c with e | ⟨r0, gs⟩
    · rfl
    · simp only []
      obtain ⟨cons, hc1, _, _, hc4, _, hc6⟩ := scanCore_ok_spec _ _ _ _ _ _ _ hsc
      by_cases hgs : gs = true
      · subst hgs
        simp only [if_true]
        obtain ⟨_, htok, _⟩ := hc6 rfl
        have hne : cons ≠ [] := hc4 (by rw [htok]; simp)
        have hlen := append_ne_nil_length hc1 hne
        exact ih r0.src (by omega) r0.line r0.col
      · have hgs' : gs = false := by
          cases gs
          · rfl
          · exact absurd rfl hgs
        subst hgs'
        simp only [Bool.false_eq_true, if_false]
        by_cases hh : k.has r0.tok = true
        · simp [catEnabled_set, hh]
        · have hh' : k.has r0.tok = false := by
            cases hq : k.has r0.tok
            · rfl
            · exact absurd hq hh
          simp only [catEnabled_set, hh', Bool.false_eq_true, if_false]
          by_cases hce : catEnabled m r0.tok = true
          · simp [hce, hh']
          · have hce' : catEnabled m r0.tok = false := by
              cases hq : catEnabled m r0.tok
              · rfl
              · exact absurd hq hce
            simp only [hce', Bool.false_eq_true, if_false]
            have hne := hc4 (catEnabled_false_ne_eof m r0.tok hce')
            have hlen := append_ne_nil_length hc1 hne
            rw [ih r0.src (by omega) r0.line r0.col]

theorem tokensT_sim (k : MCat) (m : Mode) : ∀ bound src, List.length src ≤ bound → ∀ l c,
    tokensT (k.set false m) src l c =
      (tokensT (k.set true m) src l c).map
        (List.filter (fun r => !(MCat.has k r.tok))) := by
  intro bound
  induction bound with
  | zero =>
    intro src hk l c
    have hs : src = [] := List.length_eq_zero.mp (Nat.le_zero.mp hk)
    subst hs
    rw [tokensT_unfold, tokensT_unfold, scanT_nil, scanT_nil]
    simp [Except.map, mcat_has_eof]
  | succ bound ih =>
    intro src hk l c
    rw [tokensT_unfold (k.set false m) src l c, tokensT_unfold (k.set true m) src l c]
    rw [scanT_sim k m src.length src (Nat.le_refl _) l c]
    rcases hsc : scanT (k.set true m) src l c with e | r
    · rfl
    · simp only []
      obtain ⟨pre, hp1, _, hp3, _⟩ := scanT_ok_spec _ _ _ _ _ hsc
      by_cases he : r.tok = Token.eof
      · have hhf : MCat.has k r.tok = false := by rw [he]; exact mcat_has_eof k
        rw [hhf]
        simp only [Bool.false_eq_true, if_false, if_pos he]
        simp [Except.map, List.filter, hhf]
      · have hlen := mid_append_length hp1 (hp3 he)
        by_cases hh : k.has r.tok = true
        · rw [hh]
          simp only [if_true]
          rw [← tokensT_unfold (k.set false m) r.src r.line r.col]
          rw [ih r.src (by omega) r.line r.col]
          rw [if_neg he]
          rcases hrest : tokensT (k.set true m) r.src r.line r.col with e2 | rest
          · rfl
          · simp [Except.map, List.filter, hh]
        · have hh' : k.has r.tok = false := by
            cases hq : k.has r.tok
            · rfl
            · exact absurd hq hh
          rw [hh']
          simp only [Bool.false_eq_true, if_false, if_neg he]
          rw [ih r.src (by omega) r.line r.col]
          rcases hrest : tokensT (k.set true m) r.src r.line r.col with e2 | rest
          · rfl
          · simp [Except.map, List.filter, hh']

/-- Claim C3 counterexample: with a base mask containing only ints, the source
".5" is still scanned as a float token (the numeric branch checks only the
combined ints/floats gate and classifies by its own float flag), so the
stream with floats disabled is not the floats-enabled stream with float
tokens filtered out. -/
theorem c3_filter_counterexample :
    tokens (Mode.ofBits scanIntsBit) ['.', '5'] ≠
      (tokens (Mode.ofBits (scanIntsBit ||| scanFloatsBit)) ['.', '5']).map
        (List.filter (fun r => !(r.tok == Token.float))) := by
  decide

/-- Claim C3 (amended): for each of the four categories whose branch performs
a mask test at its return — whitespace, identifiers (covering keywords),
strings and comments — disabling the category yields exactly the stream of
the enabled run with that category's tokens filtered out, every surviving
token keeping its category, contents, start and end position; for ints and
floats the numeric branch checks only the combined gate and classifies by its
own float flag, so the filtering property does not hold for them. -/
theorem c3_filter_amended (k : MCat) (m : Mode) (src : List Char) :
    tokens (k.set false m) src =
      (tokens (k.set true m) src).map
        (List.filter (fun r => !(MCat.has k r.tok))) :=
  tokensT_sim k m src.length src (Nat.le_refl _) 1 0

theorem isStringDelimiter_ne_backslash (delim : Char) (h : isStringDelimiter delim = true) :
    delim ≠ '\\' := by
  simp [isStringDelimiter, dqc, sqc, bqc] at h
  rcases h with (h | h) | h <;> subst h <;> decide

theorem stringRun_err_iff : ∀ k src, List.length src ≤ k → ∀ delim l c acc,
    isStringDelimiter delim = true →
    (stringRun delim src l c acc = .error "literal not terminated" ↔
      specUntermLit delim src = true) := by
  intro k
  induction k with
  | zero =>
    intro src hk delim l c acc hdel
    have hs : src = [] := List.length_eq_zero.mp (Nat.le_zero.mp hk)
    subst hs
    simp [stringRun, specUntermLit]
  | succ n ih =>
    intro src hk delim l c acc hdel
    have hbs := isStringDelimiter_ne_backslash delim hdel
    match src with
    | [] => simp [stringRun, specUntermLit]
    | ch :: [] =>
      rw [stringRun, specUntermLit]
      by_cases hn' : ch = '\n'
      · simp [hn']
      · rw [if_neg hn', if_neg hn']
        by_cases hb : ch = '\\'
        · have hcd : ¬ch = delim := by
            rw [hb]
            exact fun hx => hbs hx.symm
          rw [if_pos hb, if_neg hcd]
          simp
        · rw [if_neg hb]
          by_cases hcd : ch = delim
          · rw [if_pos hcd, if_pos hcd]
            simp
          · rw [if_neg hcd, if_neg hcd]
            simp
    | ch :: d :: rest2 =>
      rw [stringRun, specUntermLit]
      simp only [List.length_cons, Nat.add_le_add_iff_right] at hk
      by_cases hn' : ch = '\n'
      · simp [hn']
      · rw [if_neg hn', if_neg hn']
        by_cases hb : ch = '\\'
        · have hcd : ¬ch = delim := by
            rw [hb]
            exact fun hx => hbs hx.symm
          rw [if_pos hb, if_pos hb]
          by_cases hd : d = delim
          · rw [if_pos hd, if_pos hd, if_neg hcd]
            exact ih rest2 (by omega) delim _ _ _ hdel
          · rw [if_neg hd, if_neg hd, if_neg hcd]
            exact ih (d :: rest2) hk delim _ _ _ hdel
        · rw [if_neg hb, if_neg hb]
          by_cases hcd : ch = delim
          · rw [if_pos hcd, if_pos hcd]
            simp
          · rw [if_neg hcd, if_neg hcd]
            exact ih (d :: rest2) hk delim _ _ _ hdel

theorem blockRun_err_iff : ∀ k src, List.length src ≤ k → ∀ l c acc,
    (blockRun src l c acc = .error "comment not terminated" ↔
      specUntermBlock src = true) := by
  intro k
  induction k with
  | zero =>
    intro src hk l c acc
    have hs : src = [] := List.length_eq_zero.mp (Nat.le_zero.mp hk)
    subst hs
    simp [blockRun, specUntermBlock]
  | succ n ih =>
    intro src hk l c acc
    match src with
    | [] => simp [blockRun, specUntermBlock]
    | ch :: [] => simp [blockRun, specUntermBlock]
    | ch :: q :: rest2 =>
      rw [blockRun, specUntermBlock]
      simp only [List.length_cons, Nat.add_le_add_iff_right] at hk
      have hcond : (isBlockCommentClose ch 0 && isBlockCommentClose q 1) =
          (decide (ch = '*') && ((q :: rest2).head? == some '/')) := by
        simp [isBlockCommentClose, Bool.beq_eq_decide_eq]
      rw [hcond]
      by_cases hcl : (decide (ch = '*') && ((q :: rest2).head? == some '/')) = true
      · rw [if_pos hcl, if_pos hcl]
        simp
      · rw [if_neg hcl, if_neg hcl]
        exact ih (q :: rest2) hk _ _ _

theorem strDelim_not_ws (d : Char) (h : isStringDelimiter d = true) : isWhitespace d = false := by
  simp [isStringDelimiter, dqc, sqc, bqc] at h
  rcases h with (h | h) | h <;> subst h <;> decide

theorem strDelim_not_ident (d : Char) (h : isStringDelimiter d = true) : isIdent d 0 = false := by
  simp [isStringDelimiter, dqc, sqc, bqc] at h
  rcases h with (h | h) | h <;> subst h <;> decide

theorem scanT_string_dispatch (m : Mode) (l c : Nat) (delim : Char) (rest : List Char)
    (hdel : isStringDelimiter delim = true) :
    scanT m (delim :: rest) l c =
      match stringRun delim rest (advancePos delim l c).1 (advancePos delim l c).2 [delim] with
      | .error e => .error e
      | .ok (s2, l2, c2, acc) =>
        if catEnabled m Token.string then
          .ok ⟨Token.string, s2, l2, c2, acc, (advancePos delim l c).1, (advancePos delim l c).2⟩
        else scanT m s2 l2 c2 := by
  rw [scanT_unfold]
  unfold scanCore
  simp only [nextc]
  rw [if_neg (by rw [strDelim_not_ws delim hdel]; simp),
    if_neg (by rw [strDelim_not_ident delim hdel]; simp), if_pos hdel]
  rcases hsr : stringRun delim rest (advancePos delim l c).1 (advancePos delim l c).2 [delim]
    with e | ⟨s2, l2, c2, acc⟩
  · rfl
  · simp only []
    by_cases hce : catEnabled m Token.string = true
    · rw [hce]
      simp
    · have hce' : catEnabled m Token.string = false := by
        cases hq : catEnabled m Token.string
        · rfl
        · exact absurd hq hce
      rw [hce']
      simp

/-- Claim C5: the only errors scan() ever raises are the two lexical error
kinds; the string loop raises exactly the literal error and does so precisely
on the spec's unterminated-string condition (raw newline or exhaustion before
the closing delimiter, escaped delimiters not closing); the block-comment
loop raises exactly the comment error and does so precisely on exhaustion
before the closing marker; and at dispatch position, with the corresponding
category emitted, scan() on a string-delimiter-headed (resp. block-comment
headed) source errors iff the corresponding spec condition holds, with the
corresponding error kind and not the other. -/
theorem c5_error_kinds :
    (∀ m src l c e, scanT m src l c = .error e →
      e = "literal not terminated" ∨ e = "comment not terminated") ∧
    (∀ delim src l c acc e, stringRun delim src l c acc = .error e →
      e = "literal not terminated") ∧
    (∀ src l c acc e, blockRun src l c acc = .error e → e = "comment not terminated") ∧
    (∀ m l c delim rest, isStringDelimiter delim = true → m.strs = true →
      (scanT m (delim :: rest) l c = .error "literal not terminated" ↔
        specUntermLit delim rest = true)) ∧
    (∀ m l c rest, m.cmts = true →
      (scanT m ('/' :: '*' :: rest) l c = .error "comment not terminated" ↔
        specUntermBlock ('*' :: rest) = true)) := by
  refine ⟨?_, ?_, ?_, ?_, ?_⟩
  · intro m src l c e h
    exact scanT_err_kinds m src.length src (Nat.le_refl _) l c e h
  · intro delim src l c acc e h
    exact stringRun_err_msg src.length src (Nat.le_refl _) delim l c acc e h
  · intro src l c acc e h
    exact blockRun_err_msg src.length src (Nat.le_refl _) l c acc e h
  · intro m l c delim rest hdel hstr
    rw [scanT_string_dispatch m l c delim rest hdel]
    rcases hsr : stringRun delim rest (advancePos delim l c).1 (advancePos delim l c).2 [delim]
      with e | ⟨s2, l2, c2, acc⟩
    · simp only []
      have he := stringRun_err_msg rest.length rest (Nat.le_refl _) _ _ _ _ _ hsr
      subst he
      constructor
      · intro _
        exact (stringRun_err_iff rest.length rest (Nat.le_refl _) delim _ _ [delim] hdel).mp hsr
      · intro _
        rfl
    · simp only []
      have hce : catEnabled m Token.string = true := hstr
      rw [hce]
      simp only [if_true]
      constructor
      · intro habs
        simp at habs
      · intro hspec
        have := (stringRun_err_iff rest.length rest (Nat.le_refl _) delim
          (advancePos delim l c).1 (advancePos delim l c).2 [delim] hdel).mpr hspec
        rw [hsr] at this
        simp at this
  · intro m l c rest hcmt
    rw [scanT_unfold]
    unfold scanCore
    simp only [nextc]
    rw [if_neg (by decide), if_neg (by decide), if_neg (by decide)]
    rw [if_neg (by simp [isDecimal, isSign, decimalHead, charLe]),
      if_pos (by decide)]
    unfold cmtScan
    simp only [List.head?]
    rw [if_pos (by decide)]
    rcases hbr : blockRun ('*' :: rest) (advancePos '/' l c).1 (advancePos '/' l c).2 ['/']
      with e | ⟨s2, l2, c2, acc⟩
    · simp only []
      have he := blockRun_err_msg ('*' :: rest).length ('*' :: rest) (Nat.le_refl _) _ _ _ _ hbr
      subst he
      constructor
      · intro _
        exact (blockRun_err_iff ('*' :: rest).length ('*' :: rest) (Nat.le_refl _) _ _ ['/']).mp hbr
      · intro _
        rfl
    · simp only []
      have hce : catEnabled m Token.comment = true := hcmt
      rw [hce]
      simp only [if_true]
      constructor
      · intro habs
        simp at habs
      · intro hspec
        have := (blockRun_err_iff ('*' :: rest).length ('*' :: rest) (Nat.le_refl _)
          (advancePos '/' l c).1 (advancePos '/' l c).2 ['/']).mpr hspec
        rw [hbr] at this
        simp at this

theorem c5_error_kinds_witness :
    scanT defaultMode (sqc :: ['n', 'o']) 1 0 = .error "literal not terminated" ∧
    scanT allMode ['/', '*', 'x'] 1 0 = .error "comment not terminated" :=
  ⟨(c5_error_kinds.2.2.2.1 defaultMode 1 0 sqc ['n', 'o'] (by decide) (by decide)).mpr
      (by decide),
   (c5_error_kinds.2.2.2.2 allMode 1 0 ['x'] (by decide)).mpr (by decide)⟩

/-- Claim C6 counterexample: with the default mode (floats enabled), the
source "0x1.5" is scanned as one single float token whose contents are
"0x1.5": the dot check precedes the locked-base check in the integer loop, so
a hex integer literal does extend with a fractional part. -/
theorem c6_hexfloat_counterexample :
    tokens defaultMode ['0', 'x', '1', '.', '5'] =
      .ok [⟨Token.float, [], 1, 5, ['0', 'x', '1', '.', '5'], 1, 1⟩,
           ⟨Token.eof, [], 1, 5, [], 1, 5⟩] ∧
    Token.float ≠ Token.int :=
  ⟨by decide, by decide⟩

theorem fracRun_decimal (src : List Char) : ∀ l c acc src2 l2 c2 acc2,
    fracRun src l c acc = (src2, l2, c2, acc2) →
    ∃ t, acc2 = acc ++ t ∧ ∀ ch ∈ t, isDecimal ch = true := by
  induction src with
  | nil =>
    intro l c acc src2 l2 c2 acc2 h
    simp [fracRun] at h
    exact ⟨[], by simp [h.2.2.2], by simp⟩
  | cons ch rest ih =>
    intro l c acc src2 l2 c2 acc2 h
    by_cases hd : isDecimal ch
    · rw [fracRun, if_pos hd] at h
      obtain ⟨t, h1, h2⟩ := ih _ _ _ _ _ _ _ h
      refine ⟨ch :: t, by simp [h1], ?_⟩
      intro x hx
      rcases List.mem_cons.mp hx with hx | hx
      · rw [hx]
        exact hd
      · exact h2 x hx
    · rw [fracRun, if_neg hd] at h
      simp at h
      exact ⟨[], by simp [h.2.2.2], by simp⟩

/-- Claim C6 (amended): a dot reached while the integer part is accumulating
switches the literal to float mode regardless of the locked-in base (whenever
floats are enabled) and begins a fractional run that accepts decimal digits
only; consequently a hex integer literal can carry a decimal fractional part,
and "0x1.5" is scanned as the single float token "0x1.5". -/
theorem c6_hexfloat_amended :
    (∀ rest l c acc i chk, intRun true ('.' :: rest) l c acc i chk =
      (rest, l, c + 1, acc ++ ['.'], true)) ∧
    (∀ src l c acc src2 l2 c2 acc2, fracRun src l c acc = (src2, l2, c2, acc2) →
      ∃ t, acc2 = acc ++ t ∧ ∀ ch ∈ t, isDecimal ch = true) ∧
    scanT defaultMode ['0', 'x', '1', '.', '5'] 1 0 =
      .ok ⟨Token.float, [], 1, 5, ['0', 'x', '1', '.', '5'], 1, 1⟩ := by
  refine ⟨?_, fracRun_decimal, by decide⟩
  intro rest l c acc i chk
  rw [intRun.eq_def]
  simp [advancePos]

theorem c6_hexfloat_amended_witness :
    ∃ t, (['a', '5'] : List Char) = ['a'] ++ t ∧ ∀ ch ∈ t, isDecimal ch = true :=
  c6_hexfloat_amended.2.1 ['5', 'x'] 1 0 ['a'] ['x'] 1 1 ['a', '5'] (by decide)

/-- Claim C7 counterexample: "+x" begins with a sign character and never
gains any decimal digit, yet scan() returns an int token with contents "+x"
(the hex base predicate accepts `x` at index 1 with no digit ever seen), not
the generic token with the lone sign. -/
theorem c7_lone_sign_counterexample :
    scanT defaultMode ['+', 'x'] 1 0 = .ok ⟨Token.int, [], 1, 2, ['+', 'x'], 1, 1⟩ ∧
    (∀ ch ∈ (['+', 'x'] : List Char), isDecimal ch = false) ∧
    Token.int ≠ Token.token :=
  ⟨by decide, by decide, by decide⟩

/-- Claim C7 (amended): an input beginning with a sign character returns the
generic token with the lone sign as contents whenever the character after the
sign (if any) can extend the literal in no way: it is not a decimal digit,
not a base marker accepted at index 1 (x/X, o/O, b/B), not a dot and not an
e-notation marker.  (Inputs such as "+x" or "+." do extend without digits and
yield int or float tokens instead.) -/
theorem c7_lone_sign_amended (m : Mode) (l c : Nat) (sgn : Char) (rest : List Char)
    (hs : isSign sgn = true) (hg : (m.ints || m.floats) = true)
    (hnext : ∀ ch, rest.head? = some ch →
      isDecimal ch = false ∧ isHex ch 1 = false ∧ isOctal ch 1 = false ∧
      isBinary ch 1 = false ∧ ch ≠ '.' ∧ isENotationChar ch = false) :
    scanT m (sgn :: rest) l c = .ok ⟨Token.token, rest, l, c + 1, [sgn], l, c + 1⟩ := by
  have hsgn : sgn = '+' ∨ sgn = '-' := by
    simp [isSign] at hs
    exact hs
  have hnn : ¬sgn = '\n' := by
    rcases hsgn with h | h <;> subst h <;> decide
  have hadv : advancePos sgn l c = (l, c + 1) := by
    rw [advancePos, if_neg hnn]
  have hint : intRun m.floats rest l (c + 1) [sgn] 1 none = (rest, l, c + 1, [sgn], false) := by
    match rest with
    | [] => rw [intRun]
    | ch :: rest2 =>
      obtain ⟨hd, hh, ho, hb, hdot2, he⟩ := hnext ch rfl
      rw [intRun.eq_def]
      simp only []
      rw [if_neg (by simp [hdot2])]
      simp only [hh, ho, hb, hd, Bool.false_eq_true, if_false]
  have hnum : numScan m.floats sgn rest l (c + 1) =
      ⟨Token.token, rest, l, c + 1, [sgn], l, c + 1⟩ := by
    unfold numScan
    have hdot : ¬sgn = '.' := by
      rcases hsgn with h | h <;> subst h <;> decide
    rw [if_neg hdot, hint]
    simp only [Bool.false_eq_true, if_false]
    have herun : eRun m.floats rest l (c + 1) [sgn] false = (rest, l, c + 1, [sgn], false) := by
      match rest with
      | [] => rw [eRun]
      | ch :: rest2 =>
        obtain ⟨_, _, _, _, _, he⟩ := hnext ch rfl
        rw [eRun.eq_def]
        simp only []
        rw [if_neg (by simp [he])]
    rw [herun]
    simp only [isLoneSign, hs, if_true]
  rw [scanT_unfold]
  unfold scanCore
  simp only [nextc]
  rw [hadv]
  rw [if_neg (by rcases hsgn with h | h <;> subst h <;> decide),
    if_neg (by rcases hsgn with h | h <;> subst h <;> decide),
    if_neg (by rcases hsgn with h | h <;> subst h <;> decide),
    if_pos (by simp [hs]), hg]
  simp only [Bool.not_true, Bool.false_eq_true, if_false, hnum]
  simp [catEnabled]

theorem c7_lone_sign_amended_witness :
    scanT defaultMode ['+', 'a'] 1 0 = .ok ⟨Token.token, ['a'], 1, 1, ['+'], 1, 1⟩ :=
  c7_lone_sign_amended defaultMode 1 0 '+' ['a'] (by decide) (by decide)
    (by
      intro ch h
      simp at h
      subst h
      exact ⟨by decide, by decide, by decide, by decide, by decide, by decide⟩)

/-- Claim C8 counterexample: with the minRead option set to 5 and no supplied
chunk buffer, a refill from a reader whose first chunk delivers three
characters stops with only three buffered characters although the source is
not exhausted: the option does not raise the refill threshold, which stays at
the fixed constant MIN_READ = 2. -/
theorem c8_refill_counterexample :
    refill (chunkBufLen ⟨none, some 5⟩) [['a', 'b', 'c'], ['d', 'e', 'f', 'g', 'h']] [] =
      ([['d', 'e', 'f', 'g', 'h']], ['a', 'b', 'c']) ∧
    (['a', 'b', 'c'] : List Char).length < 5 ∧
    ([['d', 'e', 'f', 'g', 'h']] : List (List Char)) ≠ [] :=
  ⟨by decide, by decide, by decide⟩

/-- Claim C8 (amended): the refill loop's threshold is the fixed module
constant MIN_READ = 2, independent of any option: after a refill from a
reader whose pending chunks are non-empty (and a positive chunk buffer
length), the working buffer holds at least MIN_READ characters or the source
is exhausted.  The minRead construction option instead sets the byte length
of the chunk buffer handed to each raw read when no chunk buffer is supplied
(with 512 as the default and as the JS-falsy fallback for 0), and a supplied
chunk buffer's own length fixes the read request size. -/
theorem c8_refill_amended :
    (∀ len chunks buffer, (∀ ck ∈ chunks, ck ≠ ([] : List Char)) → 0 < len →
      MIN_READ ≤ (refill len chunks buffer).2.length ∨ (refill len chunks buffer).1 = []) ∧
    MIN_READ = 2 ∧
    chunkBufLen ⟨none, none⟩ = 512 ∧
    (∀ n, chunkBufLen ⟨none, some n⟩ = if n = 0 then 512 else n) ∧
    (∀ b mr, chunkBufLen ⟨some b, mr⟩ = b) := by
  refine ⟨?_, rfl, rfl, fun n => rfl, fun b mr => rfl⟩
  intro len chunks
  induction chunks with
  | nil =>
    intro buffer hck hlen
    rw [refill]
    by_cases hb : buffer.length < MIN_READ
    · rw [if_pos hb]
      exact Or.inr rfl
    · rw [if_neg hb]
      exact Or.inr rfl
  | cons ck rest ih =>
    intro buffer hck hlen
    rw [refill]
    by_cases hb : buffer.length < MIN_READ
    · rw [if_pos hb]
      have hckne : ck ≠ [] := hck ck (by simp)
      have hgot : (ck.take len).length ≠ 0 := by
        rw [List.length_take]
        have : 0 < ck.length := List.length_pos.mpr hckne
        omega
      rw [if_neg hgot]
      exact ih (buffer ++ ck.take len) (fun x hx => hck x (by simp [hx])) hlen
    · rw [if_neg hb]
      exact Or.inl (by simp only []; omega)

theorem c8_refill_amended_witness :
    MIN_READ ≤ (refill 512 [['a', 'b', 'c']] []).2.length ∨
      (refill 512 [['a', 'b', 'c']] []).1 = [] :=
  c8_refill_amended.1 512 [['a', 'b', 'c']] [] (by decide) (by decide)

/-- Claim C9 counterexample: asserting the generic token category against a
scanner that observes the identifier "a" raises the error, but its message
carries no "; expected token" suffix although an expected category was
specified — the generic token's enum value 0 is falsy in the message
builder's expected-token test. -/
theorem c9_token_error_counterexample :
    nextTokenIs defaultMode (initState ['a']) Token.token none =
      .error "unexpected identifier (a) on line 1, column 1" ∧
    "unexpected identifier (a) on line 1, column 1" ≠
      "unexpected identifier (a) on line 1, column 1; expected token" :=
  ⟨by decide, by decide⟩

/-- Claim C9 (amended): the assertion helper performs one scan() call, whose
error it propagates unchanged; when the scan succeeds it returns the observed
contents iff the observed category equals the expected one and, when expected
contents are specified, they equal the observed contents; otherwise it raises
the message of the form
unexpected <category>[ (<contents>)] on line <L>, column <C>[; expected <category>[ <contents>]]
where the parenthesised contents appear exactly when the observed contents
are non-empty and the expected suffix appears exactly when an expected
category with non-zero enum value was specified (the generic token, value 0,
is falsy and yields no suffix). -/
theorem c9_token_error_amended :
    (∀ m s expected ec e, scan m s = .error e → nextTokenIs m s expected ec = .error e) ∧
    (∀ m s expected ec t s2, scan m s = .ok (t, s2) →
      ((t = expected ∧ (∀ cstr, ec = some cstr → cstr = String.mk s2.contents)) →
        nextTokenIs m s expected ec = .ok (String.mk s2.contents)) ∧
      (¬(t = expected ∧ (∀ cstr, ec = some cstr → cstr = String.mk s2.contents)) →
        nextTokenIs m s expected ec =
          .error (specTokenMsg t (String.mk s2.contents) s2.startLine s2.startCol
            (some expected) ec))) := by
  have hmsg : ∀ cont sl sc t ex ec, tokenErrorMessage cont sl sc t (some ex) ec =
      specTokenMsg t cont sl sc (some ex) ec := by
    intro cont sl sc t ex ec
    rfl
  constructor
  · intro m s expected ec e h
    unfold nextTokenIs
    rw [h]
  · intro m s expected ec t s2 h
    constructor
    · rintro ⟨h1, h2⟩
      unfold nextTokenIs
      rw [h]
      simp only []
      have hc1 : (t == expected) = true := by
        simp [h1]
      have hc2 : (!(ec.isSome) || (ec == some (String.mk s2.contents))) = true := by
        cases ec with
        | none => simp
        | some x =>
          have := h2 x rfl
          simp [this]
      rw [hc1, hc2]
      simp
    · intro hne
      unfold nextTokenIs
      rw [h]
      simp only []
      have hcond : (!(t == expected) ||
          !(!(ec.isSome) || (ec == some (String.mk s2.contents)))) = true := by
        by_cases h1 : t = expected
        · have h2 : ¬(∀ cstr, ec = some cstr → cstr = String.mk s2.contents) := by
            intro h2
            exact hne ⟨h1, h2⟩
          cases ec with
          | none => exact absurd (fun cstr hc => by simp at hc) h2
          | some x =>
            have hx : ¬x = String.mk s2.contents := by
              intro hx
              exact h2 (fun cstr hc => by injection hc with hc; rw [← hc]; exact hx)
            simp [hx]
        · simp [h1]
      rw [hcond]
      simp only [if_true]
      rw [hmsg]

theorem c9_token_error_amended_witness :
    nextTokenIs defaultMode (initState ['a']) Token.int none =
      .error (specTokenMsg Token.identifier (String.mk ['a']) 1 1 (some Token.int) none) :=
  ((c9_token_error_amended.2 defaultMode (initState ['a']) Token.int none Token.identifier
      ⟨[], 1, 1, ['a'], some Token.identifier, 1, 1⟩ (by decide)).2
    (by
      intro hx
      exact absurd hx.1 (by decide)))
